import Mathlib

/-!
# Verification of the `icoords` piecewise-linear coordinate core

Shallow embedding of `src/icoords/interpolate.py` over exact rationals.
Numeric (non-datetime) arrays are modelled as `List ℚ`; integer index arrays
as `List ℤ`.  Fallible numpy operations return `Except NpError _`, and the
`while` loop of `_simplify` is embedded as a fuel-indexed loop (a `none`
result means the fuel was exhausted).
-/

set_option maxHeartbeats 1000000
set_option maxRecDepth 16384

/-- Error kinds raised by the interpolation core (`ValueError` messages in the
source, classified as in the specification's error taxonomy). -/
inductive NpError where
  /-- `"xp must be strictly increasing"` raised by `_linear_interpolate`. -/
  | invalidDomain : NpError
  /-- `"valid methods are: 'nearest', 'before', 'after'"` raised by `get_index`. -/
  | invalidArgument : NpError
  /-- shape errors raised inside numpy (`np.interp` on empty or mismatched
  arrays, `np.argmax` of an empty array). -/
  | shapeMismatch : NpError
deriving DecidableEq, Repr

/-- Core of `np.interp` on a list of `(xp, fp)` pairs: clamp below the first
sample point and above the last one, linear interpolation in between.
`np.interp` raises on an empty sample list; that case is handled by `npInterp`
below, so the `[]` case here is unreachable junk. -/
def interpPts (q : ℚ) : List (ℚ × ℚ) → ℚ
  | [] => 0
  | [p] => p.2
  | p0 :: p1 :: ps =>
    if q < p0.1 then p0.2
    else if q < p1.1 then p0.2 + (p1.2 - p0.2) * (q - p0.1) / (p1.1 - p0.1)
    else interpPts q (p1 :: ps)

/-- `np.interp(x, xp, fp)` for a scalar query: raises when `xp` is empty or
when `xp` and `fp` have different lengths. -/
def npInterp (q : ℚ) (xp fp : List ℚ) : Except NpError ℚ :=
  if xp.length = 0 ∨ xp.length ≠ fp.length then .error .shapeMismatch
  else .ok (interpPts q (xp.zip fp))

/-- `np.interp(x, xp, fp)` for a vector query (numpy broadcasts the scalar
computation over the query array). -/
def npInterpVec (qs : List ℚ) (xp fp : List ℚ) : Except NpError (List ℚ) :=
  if xp.length = 0 ∨ xp.length ≠ fp.length then .error .shapeMismatch
  else .ok (qs.map (fun q => interpPts q (xp.zip fp)))

/-- `ScaleOffset`: scale-offset transform used to floatize arrays. -/
structure ScaleOffset where
  scale : ℚ
  offset : ℚ

/-- `ScaleOffset.floatize`: on the numeric (non-datetime) dtypes modelled
here, the transform is always `scale = 1.0, offset = 0.0`. -/
def ScaleOffset.floatize (_arr : List ℚ) : ScaleOffset := ⟨1, 0⟩

/-- `ScaleOffset.direct`. -/
def ScaleOffset.direct (t : ScaleOffset) (v : ℚ) : ℚ := (v - t.offset) / t.scale

/-- `ScaleOffset.inverse` (the `np.rint` branch applies only to timedelta
scales, which are outside the numeric model). -/
def ScaleOffset.inverse (t : ScaleOffset) (v : ℚ) : ℚ := t.scale * v + t.offset

/-- `_is_strictly_increasing` (numeric branch): all consecutive differences
are positive, i.e. the list is a strictly increasing chain. -/
def isStrictlyIncreasing (l : List ℚ) : Prop := List.Chain' (· < ·) l

instance (l : List ℚ) : Decidable (isStrictlyIncreasing l) :=
  inferInstanceAs (Decidable (List.Chain' _ l))

/-- `_linear_interpolate(x, xp, fp)` for a scalar query. -/
def linearInterpolate (q : ℚ) (xp fp : List ℚ) : Except NpError ℚ :=
  if ¬ isStrictlyIncreasing xp then .error .invalidDomain
  else
    let xT := ScaleOffset.floatize xp
    let fT := ScaleOffset.floatize fp
    (npInterp (xT.direct q) (xp.map xT.direct) (fp.map fT.direct)).map fT.inverse

/-- `_linear_interpolate(x, xp, fp)` for a vector query. -/
def linearInterpolateVec (qs : List ℚ) (xp fp : List ℚ) : Except NpError (List ℚ) :=
  if ¬ isStrictlyIncreasing xp then .error .invalidDomain
  else
    let xT := ScaleOffset.floatize xp
    let fT := ScaleOffset.floatize fp
    (npInterpVec (qs.map xT.direct) (xp.map xT.direct) (fp.map fT.direct)).map
      (fun l => l.map fT.inverse)

/-- `np.rint`: round half to even. -/
def rint (q : ℚ) : ℤ :=
  if q - ⌊q⌋ < 1/2 then ⌊q⌋
  else if 1/2 < q - ⌊q⌋ then ⌊q⌋ + 1
  else if Even ⌊q⌋ then ⌊q⌋ else ⌊q⌋ + 1

/-- Integer index arrays are cast to floats (rationals) wherever they enter
interpolation arithmetic. -/
def castList (l : List ℤ) : List ℚ := l.map (fun i : ℤ => (i : ℚ))

deriving instance DecidableEq for Except

/-- `LinearCoordinate`: a piecewise linear coordinate defined by its tie
points.  `tie_indices` is an integer array, `tie_values` a numeric array. -/
structure LinearCoordinate where
  tie_indices : List ℤ
  tie_values : List ℚ
deriving DecidableEq, Repr

/-- `LinearCoordinate.get_value`. -/
def LinearCoordinate.get_value (c : LinearCoordinate) (q : ℚ) : Except NpError ℚ :=
  linearInterpolate q (castList c.tie_indices) c.tie_values

/-- `LinearCoordinate.get_index`: interpolate the (fractional) index, then
round it according to `method`.  The interpolation happens before the method
string is inspected, as in the source. -/
def LinearCoordinate.get_index (c : LinearCoordinate) (v : ℚ) (method : String) :
    Except NpError ℤ := do
  let index ← linearInterpolate v c.tie_values (castList c.tie_indices)
  match method with
  | "nearest" => pure (rint index)
  | "before" => pure ⌊index⌋
  | "after" => pure ⌈index⌉
  | _ => Except.error NpError.invalidArgument

/-- `LinearCoordinate.get_index_slice`: value slice `[v0, v1)` to index slice. -/
def LinearCoordinate.get_index_slice (c : LinearCoordinate) (v0 v1 : ℚ) :
    Except NpError (ℤ × ℤ) := do
  let start ← c.get_index v0 "after"
  let e ← c.get_index v1 "before"
  pure (start, e + 1)

/-- `LinearCoordinate.slice`: restrict to the half-open index range `[a, b)`,
interpolating boundary values, keeping interior tie points and re-basing the
indices to start at 0 (`tie_indices[0]` is `start_index` by construction). -/
def LinearCoordinate.slice (c : LinearCoordinate) (a b : ℤ) :
    Except NpError LinearCoordinate := do
  let start_index := a
  let end_index := b - 1
  let start_value ← c.get_value (start_index : ℚ)
  let end_value ← c.get_value (end_index : ℚ)
  let kept := (c.tie_indices.zip c.tie_values).filter
    (fun p => decide (start_index < p.1 ∧ p.1 < end_index))
  let tie_indices := (start_index :: kept.map Prod.fst) ++ [end_index]
  let tie_values := (start_value :: kept.map Prod.snd) ++ [end_value]
  pure ⟨tie_indices.map (fun i => i - start_index), tie_values⟩

/-- Accumulator for `np.argmax`: current position, best position, best value;
the best position is updated only on a strict improvement, so the first
occurrence of the maximum wins. -/
def argmaxFrom : List ℚ → ℕ → ℕ → ℚ → ℕ
  | [], _, bi, _ => bi
  | a :: rest, i, bi, bv =>
    if bv < a then argmaxFrom rest (i + 1) i a else argmaxFrom rest (i + 1) bi bv

/-- `np.argmax` (first index of the maximum; `np.argmax` raises on an empty
array, which callers check separately — the `[]` case here is junk). -/
def npArgmax : List ℚ → ℕ
  | [] => 0
  | a :: rest => argmaxFrom rest 1 0 a

/-- One iteration body of the `_simplify` loop on the popped range `(s, t)`:
interpolate every point of the range on the chord between the range's first
and last points, take the deviations `d`, and return `some` split position
when the maximal deviation exceeds `epsilon`, `none` when the range can be
simplified (all interior points discardable). -/
def rdpStep (x : List ℤ) (y : List ℚ) (eps : ℚ) (s t : ℕ) :
    Except NpError (Option ℕ) := do
  let queries := (List.range (t - s)).map (fun k => ((x.getD (s + k) 0 : ℤ) : ℚ))
  let xp := [((x.getD s 0 : ℤ) : ℚ), ((x.getD (t - 1) 0 : ℤ) : ℚ)]
  let fp := [y.getD s 0, y.getD (t - 1) 0]
  let ysimple ← linearInterpolateVec queries xp fp
  let yvals := (List.range (t - s)).map (fun k => y.getD (s + k) 0)
  let d := (yvals.zip ysimple).map (fun p => |p.1 - p.2|)
  if d = [] then Except.error NpError.shapeMismatch
  else
    let index := npArgmax d
    let dmax := d.getD index 0
    if eps < dmax then pure (some (s + index)) else pure none

/-- The `while stack:` loop of `_simplify`, with an explicit fuel.  The stack
is a cons-list whose head is the python list's tail (`stack.pop()` pops the
most recently appended range; a split appends `[start, index+1]` then
`[index, stop]`, so `[index, stop]` is popped first).  A simplifiable range
clears the keep-mask strictly between its endpoints
(`mask[start+1:stop-1] = False`). -/
def simplifyLoop (x : List ℤ) (y : List ℚ) (eps : ℚ) :
    ℕ → List (ℕ × ℕ) → (ℕ → Bool) → Option (Except NpError (ℕ → Bool))
  | 0, _, _ => none
  | _ + 1, [], mask => some (.ok mask)
  | fuel + 1, (s, t) :: rest, mask =>
    match rdpStep x y eps s t with
    | .error e => some (.error e)
    | .ok (some m) => simplifyLoop x y eps fuel ((m, t) :: (s, m + 1) :: rest) mask
    | .ok none =>
      simplifyLoop x y eps fuel rest
        (fun p => if s + 1 ≤ p ∧ p + 1 < t then false else mask p)

/-- Positions discarded by the recursive processing of one range `(s, t)`,
as a fuel-indexed boolean predicate (`t - s` fuel suffices on well-formed
input; see `discFuel_stable`). -/
def discFuel (x : List ℤ) (y : List ℚ) (eps : ℚ) : ℕ → ℕ → ℕ → ℕ → Bool
  | 0, _, _, _ => false
  | fuel + 1, s, t, p =>
    match rdpStep x y eps s t with
    | .error _ => false
    | .ok (some m) => discFuel x y eps fuel s (m + 1) p || discFuel x y eps fuel m t p
    | .ok none => decide (s + 1 ≤ p ∧ p + 1 < t)

/-- Positions discarded by the processing of range `(s, t)` (with just enough
fuel). -/
def discSet (x : List ℤ) (y : List ℚ) (eps : ℚ) (s t p : ℕ) : Bool :=
  discFuel x y eps (t - s) s t p

/-- `arr[mask]`: boolean-mask selection, tracking element positions from `i`. -/
def maskFilterAux {α : Type} (mask : ℕ → Bool) : ℕ → List α → List α
  | _, [] => []
  | i, a :: rest =>
    if mask i then a :: maskFilterAux mask (i + 1) rest
    else maskFilterAux mask (i + 1) rest

/-- `arr[mask]` from position 0. -/
def maskFilter {α : Type} (mask : ℕ → Bool) (l : List α) : List α :=
  maskFilterAux mask 0 l

/-- Fuel amply sufficient for `_simplify`'s loop: the measure
`∑ 3 ^ (range size)` over the stack starts at `3 ^ n` and strictly decreases
at every iteration. -/
def simplifyFuel (n : ℕ) : ℕ := 3 ^ n + 1

/-- `_simplify(x, y, epsilon)`: run the loop on the full range with the
all-`True` initial mask, then select the surviving tie points.  `none` means
the loop did not terminate within `simplifyFuel`. -/
def simplifyArrays (x : List ℤ) (y : List ℚ) (eps : ℚ) :
    Option (Except NpError (List ℤ × List ℚ)) :=
  (simplifyLoop x y eps (simplifyFuel x.length) [(0, x.length)] (fun _ => true)).map
    (Except.map (fun mask => (maskFilter mask x, maskFilter mask y)))

/-- `LinearCoordinate.simplify` (the in-place array swap is modelled as
returning the coordinate holding the new arrays). -/
def LinearCoordinate.simplify (c : LinearCoordinate) (eps : ℚ) :
    Option (Except NpError LinearCoordinate) :=
  (simplifyArrays c.tie_indices c.tie_values eps).map
    (Except.map (fun p => ⟨p.1, p.2⟩))

/-- Termination of `_simplify`'s loop on given input: some finite fuel makes
the loop return (either arrays or a propagated error). -/
def simplifyTerminates (x : List ℤ) (y : List ℚ) (eps : ℚ) : Prop :=
  ∃ fuel r, simplifyLoop x y eps fuel [(0, x.length)] (fun _ => true) = some r

/-- A tie-point list is sorted when the sample abscissae (first components)
are strictly increasing. -/
def ptsSorted (P : List (ℚ × ℚ)) : Prop := List.Chain' (fun p q => p.1 < q.1) P

/-- Second components are (non-strictly) monotone along the list. -/
def sndMono (P : List (ℚ × ℚ)) : Prop := List.Chain' (fun p q => p.2 ≤ q.2) P

/-- Second components are strictly increasing along the list. -/
def sndStrict (P : List (ℚ × ℚ)) : Prop := List.Chain' (fun p q => p.2 < q.2) P

/-- The tie-point pair list of a coordinate, index first. -/
def coordPts (c : LinearCoordinate) : List (ℚ × ℚ) :=
  (castList c.tie_indices).zip c.tie_values

/-- The tie-point pair list of a coordinate, value first (the reference role
`tie_values` plays inside `get_index`). -/
def coordPtsInv (c : LinearCoordinate) : List (ℚ × ℚ) :=
  c.tie_values.zip (castList c.tie_indices)

/-- The two chord points of tie positions `a` and `b` (used by `_simplify`'s
straight-line estimate). -/
def chordPts (x : List ℤ) (y : List ℚ) (a b : ℕ) : List (ℚ × ℚ) :=
  [(((x.getD a 0 : ℤ) : ℚ), y.getD a 0), (((x.getD b 0 : ℤ) : ℚ), y.getD b 0)]

/-- Vertical deviation of point `p` from the chord between points `a` and `b`. -/
def chordDev (x : List ℤ) (y : List ℚ) (a b p : ℕ) : ℚ :=
  |y.getD p 0 - interpPts ((x.getD p 0 : ℤ) : ℚ) (chordPts x y a b)|

/-- Termination measure of the `_simplify` stack: `∑ 3 ^ (range size)`. -/
def stackMeasure (stack : List (ℕ × ℕ)) : ℕ :=
  (stack.map (fun r => 3 ^ (r.2 - r.1))).sum

/-! ## Basic unfolding lemmas -/

theorem floatize_direct (l : List ℚ) : (ScaleOffset.floatize l).direct = id := by
  funext v
  simp [ScaleOffset.floatize, ScaleOffset.direct]

theorem floatize_inverse (l : List ℚ) : (ScaleOffset.floatize l).inverse = id := by
  funext v
  simp [ScaleOffset.floatize, ScaleOffset.inverse]

theorem linearInterpolate_eq (q : ℚ) (xp fp : List ℚ) :
    linearInterpolate q xp fp =
      if isStrictlyIncreasing xp then npInterp q xp fp else .error .invalidDomain := by
  by_cases h : isStrictlyIncreasing xp
  · simp only [linearInterpolate, floatize_direct, floatize_inverse, h,
      not_true_eq_false, if_false, if_true, List.map_id, id_eq]
    cases npInterp q xp fp <;> rfl
  · simp [linearInterpolate, h]

theorem linearInterpolateVec_eq (qs : List ℚ) (xp fp : List ℚ) :
    linearInterpolateVec qs xp fp =
      if isStrictlyIncreasing xp then npInterpVec qs xp fp else .error .invalidDomain := by
  by_cases h : isStrictlyIncreasing xp
  · simp only [linearInterpolateVec, floatize_direct, floatize_inverse, h,
      not_true_eq_false, if_false, if_true, List.map_id, id_eq]
    cases npInterpVec qs xp fp <;> simp [Except.map]
  · simp [linearInterpolateVec, h]

theorem npInterp_eq_ok (q : ℚ) (xp fp : List ℚ) (hne : xp ≠ [])
    (hlen : xp.length = fp.length) :
    npInterp q xp fp = .ok (interpPts q (xp.zip fp)) := by
  rw [npInterp, if_neg]
  push_neg
  exact ⟨fun h => hne (List.length_eq_zero.mp h), hlen⟩

theorem npInterpVec_eq_ok (qs : List ℚ) (xp fp : List ℚ) (hne : xp ≠ [])
    (hlen : xp.length = fp.length) :
    npInterpVec qs xp fp = .ok (qs.map (fun q => interpPts q (xp.zip fp))) := by
  rw [npInterpVec, if_neg]
  push_neg
  exact ⟨fun h => hne (List.length_eq_zero.mp h), hlen⟩

theorem castIdx_strictInc {x : List ℤ} (hx : List.Chain' (· < ·) x) :
    isStrictlyIncreasing (castList x) := by
  unfold isStrictlyIncreasing castList
  rw [List.chain'_map]
  exact hx.imp (fun a b h => by exact_mod_cast h)

theorem get_value_eq (c : LinearCoordinate) (hx : List.Chain' (· < ·) c.tie_indices)
    (hne : c.tie_indices ≠ []) (hlen : c.tie_indices.length = c.tie_values.length)
    (q : ℚ) : c.get_value q = .ok (interpPts q (coordPts c)) := by
  rw [LinearCoordinate.get_value, linearInterpolate_eq, if_pos (castIdx_strictInc hx),
    npInterp_eq_ok _ _ _ (by simpa [castList, List.map_eq_nil_iff] using hne)
      (by simpa [castList] using hlen)]
  rfl

theorem get_index_bind (c : LinearCoordinate) (hy : isStrictlyIncreasing c.tie_values)
    (hne : c.tie_values ≠ []) (hlen : c.tie_values.length = c.tie_indices.length)
    (v : ℚ) (method : String) :
    c.get_index v method =
      (match method with
       | "nearest" => Except.ok (rint (interpPts v (coordPtsInv c)))
       | "before" => Except.ok ⌊interpPts v (coordPtsInv c)⌋
       | "after" => Except.ok ⌈interpPts v (coordPtsInv c)⌉
       | _ => Except.error NpError.invalidArgument) := by
  rw [LinearCoordinate.get_index, linearInterpolate_eq, if_pos hy,
    npInterp_eq_ok _ _ _ hne (by simpa [castList] using hlen)]
  rfl

/-! ## C9: concrete interpolation scenario -/

/-- C9: on the coordinate with tie points `indices=[0,10,20]`,
`values=[100,200,400]`: `get_value 5 = 150`, `get_value 15 = 300`, and
`get_index 250 "nearest" = 12` (round half to even applied to the exact
interpolated index `12.5`). -/
theorem C9_concrete_scenario :
    (⟨[0, 10, 20], [100, 200, 400]⟩ : LinearCoordinate).get_value 5 = .ok 150 ∧
    (⟨[0, 10, 20], [100, 200, 400]⟩ : LinearCoordinate).get_value 15 = .ok 300 ∧
    (⟨[0, 10, 20], [100, 200, 400]⟩ : LinearCoordinate).get_index 250 "nearest" =
      .ok 12 := by
  refine ⟨?_, ?_, ?_⟩
  · norm_num [LinearCoordinate.get_value, LinearCoordinate.get_index, linearInterpolate,
      isStrictlyIncreasing, castList, ScaleOffset.floatize, ScaleOffset.direct,
      ScaleOffset.inverse, npInterp, interpPts, Except.map]
  · norm_num [LinearCoordinate.get_value, LinearCoordinate.get_index, linearInterpolate,
      isStrictlyIncreasing, castList, ScaleOffset.floatize, ScaleOffset.direct,
      ScaleOffset.inverse, npInterp, interpPts, Except.map]
  · have hf : (⌊(25/2 : ℚ)⌋ : ℤ) = 12 := by norm_num
    have hr : rint (25/2) = 12 := by
      rw [rint, hf]
      norm_num
      decide
    have h : linearInterpolate 250 ([100, 200, 400] : List ℚ) (castList [0, 10, 20]) =
        .ok (25/2) := by
      norm_num [LinearCoordinate.get_value, LinearCoordinate.get_index, linearInterpolate,
      isStrictlyIncreasing, castList, ScaleOffset.floatize, ScaleOffset.direct,
      ScaleOffset.inverse, npInterp, interpPts, Except.map]
    calc (⟨[0, 10, 20], [100, 200, 400]⟩ : LinearCoordinate).get_index 250 "nearest"
        = .ok (rint (25/2)) := by
          rw [LinearCoordinate.get_index, h]
          rfl
      _ = .ok 12 := by rw [hr]

/-! ## C5: rounding methods -/

/-- C5 counterexample: the claim says `get_index` accepts the rounding mode
`"floor"` and produces an exact floor index; on the code, `"floor"` is not a
valid method name and the call fails with the invalid-argument `ValueError`
instead of returning `⌊5.5⌋ = 5`. -/
theorem C5_counterexample_floor_rejected :
    (⟨[0, 10], [0, 10]⟩ : LinearCoordinate).get_index (11/2) "floor" =
      .error .invalidArgument ∧
    (⟨[0, 10], [0, 10]⟩ : LinearCoordinate).get_index (11/2) "floor" ≠ .ok 5 := by
  have h : linearInterpolate (11/2) ([0, 10] : List ℚ) (castList [0, 10]) = .ok (11/2) := by
    norm_num [LinearCoordinate.get_value, LinearCoordinate.get_index, linearInterpolate,
      isStrictlyIncreasing, castList, ScaleOffset.floatize, ScaleOffset.direct,
      ScaleOffset.inverse, npInterp, interpPts, Except.map]
  have he : (⟨[0, 10], [0, 10]⟩ : LinearCoordinate).get_index (11/2) "floor" =
      .error .invalidArgument := by
    rw [LinearCoordinate.get_index, h]
    rfl
  exact ⟨he, by rw [he]; simp⟩

/-- C5 (amended): the rounding modes are named `"nearest"`, `"before"` and
`"after"`; `"before"` produces the exact floor of the interpolated index,
`"after"` the exact ceiling, and every method string outside this set fails
with the invalid-argument error, never silently defaulting. -/
theorem C5_rounding_methods (c : LinearCoordinate) (v idx : ℚ)
    (h : linearInterpolate v c.tie_values (castList c.tie_indices) = .ok idx) :
    c.get_index v "nearest" = .ok (rint idx) ∧
    c.get_index v "before" = .ok ⌊idx⌋ ∧
    c.get_index v "after" = .ok ⌈idx⌉ ∧
    ∀ method, method ∉ (["nearest", "before", "after"] : List String) →
      c.get_index v method = .error .invalidArgument := by
  refine ⟨?_, ?_, ?_, ?_⟩
  · rw [LinearCoordinate.get_index, h]; rfl
  · rw [LinearCoordinate.get_index, h]; rfl
  · rw [LinearCoordinate.get_index, h]; rfl
  · intro method hm
    rw [LinearCoordinate.get_index, h]
    show (match method with
       | "nearest" => Except.ok (rint idx)
       | "before" => Except.ok ⌊idx⌋
       | "after" => Except.ok ⌈idx⌉
       | _ => Except.error NpError.invalidArgument) = _
    simp only [List.mem_cons, List.mem_singleton, not_or] at hm
    obtain ⟨h1, h2, h3, -⟩ := hm
    split <;> simp_all

/-- C5 witness: the amended statement at the concrete coordinate
`indices=[0,10]`, `values=[0,10]` and value `5.5`. -/
theorem C5_rounding_methods_witness :
    (⟨[0, 10], [0, 10]⟩ : LinearCoordinate).get_index (11/2) "nearest" = .ok (rint (11/2)) ∧
    (⟨[0, 10], [0, 10]⟩ : LinearCoordinate).get_index (11/2) "before" = .ok ⌊(11/2 : ℚ)⌋ ∧
    (⟨[0, 10], [0, 10]⟩ : LinearCoordinate).get_index (11/2) "after" = .ok ⌈(11/2 : ℚ)⌉ ∧
    ∀ method, method ∉ (["nearest", "before", "after"] : List String) →
      (⟨[0, 10], [0, 10]⟩ : LinearCoordinate).get_index (11/2) method =
        .error .invalidArgument :=
  C5_rounding_methods ⟨[0, 10], [0, 10]⟩ (11/2) (11/2) (by
    norm_num [LinearCoordinate.get_value, LinearCoordinate.get_index, linearInterpolate,
      isStrictlyIncreasing, castList, ScaleOffset.floatize, ScaleOffset.direct,
      ScaleOffset.inverse, npInterp, interpPts, Except.map])

/-! ## C7: strictness check of the interpolation primitive -/

/-- C7: on equal-length, non-empty inputs the interpolation primitive fails
with the invalid-domain error exactly when the reference sequence is not
strictly increasing (equal consecutive reference points are rejected), and on
any strictly increasing reference the check passes and an interpolated value
is returned. -/
theorem C7_strictly_increasing_check (q : ℚ) (xp fp : List ℚ)
    (hlen : xp.length = fp.length) (hne : xp ≠ []) :
    (¬ isStrictlyIncreasing xp →
      linearInterpolate q xp fp = .error .invalidDomain) ∧
    (isStrictlyIncreasing xp → ∃ v, linearInterpolate q xp fp = .ok v) := by
  constructor
  · intro h
    rw [linearInterpolate_eq, if_neg h]
  · intro h
    rw [linearInterpolate_eq, if_pos h, npInterp_eq_ok _ _ _ hne hlen]
    exact ⟨_, rfl⟩

/-- C7 witness: the spec's concrete scenario `reference=[0,5,5,10]` (duplicate
consecutive points) is rejected with the invalid-domain error. -/
theorem C7_strictly_increasing_check_witness :
    (¬ isStrictlyIncreasing [0, 5, 5, 10] →
      linearInterpolate 1 [0, 5, 5, 10] [0, 1, 2, 3] = .error .invalidDomain) ∧
    (isStrictlyIncreasing [0, 5, 5, 10] →
      ∃ v, linearInterpolate 1 [0, 5, 5, 10] [0, 1, 2, 3] = .ok v) :=
  C7_strictly_increasing_check 1 [0, 5, 5, 10] [0, 1, 2, 3] rfl (by simp)

/-- The spec scenario fact itself, downstream of `C7_strictly_increasing_check`:
`[0,5,5,10]` is not strictly increasing, so the call errors. -/
theorem duplicate_reference_rejected :
    linearInterpolate 1 [0, 5, 5, 10] [0, 1, 2, 3] = .error .invalidDomain := by
  norm_num [linearInterpolate, isStrictlyIncreasing, List.chain'_cons]

/-! ## C10: strictly decreasing tie values make the inverse mapping unusable -/

/-- C10: a coordinate whose tie values are strictly decreasing (with at least
two of them) makes every `get_index` call fail with the invalid-domain error,
for every query value and every method string (the interpolation with
`tie_values` as reference happens before the method is inspected), and every
`get_index_slice` call fail the same way. -/
theorem C10_decreasing_values_error (c : LinearCoordinate)
    (hdec : List.Chain' (· > ·) c.tie_values) (h2 : 2 ≤ c.tie_values.length) :
    (∀ v method, c.get_index v method = .error .invalidDomain) ∧
    (∀ v0 v1, c.get_index_slice v0 v1 = .error .invalidDomain) := by
  have hni : ¬ isStrictlyIncreasing c.tie_values := by
    intro hinc
    rcases hv : c.tie_values with - | ⟨a, - | ⟨b, l⟩⟩ <;> rw [hv] at hdec hinc h2
    · simp at h2
    · simp at h2
    · exact absurd (List.chain'_cons.mp hinc).1
        (not_lt.mpr (le_of_lt (List.chain'_cons.mp hdec).1))
  have hgi : ∀ v method, c.get_index v method = .error .invalidDomain := by
    intro v method
    rw [LinearCoordinate.get_index, linearInterpolate_eq, if_neg hni]
    rfl
  refine ⟨hgi, ?_⟩
  intro v0 v1
  rw [LinearCoordinate.get_index_slice, hgi v0 "after"]
  rfl

/-- C10 witness: the concrete decreasing coordinate `indices=[0,1]`,
`values=[1,0]`. -/
theorem C10_decreasing_values_error_witness :
    (∀ v method, (⟨[0, 1], [1, 0]⟩ : LinearCoordinate).get_index v method =
      .error .invalidDomain) ∧
    (∀ v0 v1, (⟨[0, 1], [1, 0]⟩ : LinearCoordinate).get_index_slice v0 v1 =
      .error .invalidDomain) :=
  C10_decreasing_values_error ⟨[0, 1], [1, 0]⟩ (by norm_num [List.chain'_cons]) (by simp)

/-! ## Structure lemmas for sorted tie-point lists -/

theorem mem_of_getLast?_eq {α : Type} {l : List α} {a : α} (h : l.getLast? = some a) :
    a ∈ l := by
  induction l with
  | nil => simp at h
  | cons x l' ih =>
    cases l' with
    | nil =>
      simp at h
      simp [h]
    | cons y l'' =>
      rw [List.getLast?_cons_cons] at h
      exact List.mem_cons_of_mem x (ih h)

theorem ptsSorted_pairwise {P : List (ℚ × ℚ)} (h : ptsSorted P) :
    P.Pairwise (fun p q => p.1 < q.1) := by
  have : IsTrans (ℚ × ℚ) (fun p q : ℚ × ℚ => p.1 < q.1) :=
    ⟨fun _ _ _ h1 h2 => lt_trans h1 h2⟩
  exact List.chain'_iff_pairwise.mp h

theorem sndMono_pairwise {P : List (ℚ × ℚ)} (h : sndMono P) :
    P.Pairwise (fun p q => p.2 ≤ q.2) := by
  have : IsTrans (ℚ × ℚ) (fun p q : ℚ × ℚ => p.2 ≤ q.2) :=
    ⟨fun _ _ _ h1 h2 => le_trans h1 h2⟩
  exact List.chain'_iff_pairwise.mp h

theorem chain'_zip_left {R : ℚ → ℚ → Prop} :
    ∀ {xs ys : List ℚ}, List.Chain' R xs →
      List.Chain' (fun p q : ℚ × ℚ => R p.1 q.1) (xs.zip ys) := by
  intro xs
  induction xs with
  | nil => intro ys _; simp
  | cons x xs ih =>
    intro ys h
    cases ys with
    | nil => simp
    | cons y ys =>
      rw [List.zip_cons_cons]
      refine List.chain'_cons'.mpr ⟨?_, ih h.tail⟩
      intro p hp
      cases xs with
      | nil => simp at hp
      | cons x' xs' =>
        cases ys with
        | nil => simp at hp
        | cons y' ys' =>
          simp only [List.zip_cons_cons, List.head?_cons, Option.mem_def,
            Option.some.injEq] at hp
          rw [← hp]
          exact (List.chain'_cons.mp h).1

theorem chain'_zip_right {R : ℚ → ℚ → Prop} :
    ∀ {xs ys : List ℚ}, List.Chain' R ys →
      List.Chain' (fun p q : ℚ × ℚ => R p.2 q.2) (xs.zip ys) := by
  intro xs
  induction xs with
  | nil => intro ys _; simp
  | cons x xs ih =>
    intro ys h
    cases ys with
    | nil => simp
    | cons y ys =>
      rw [List.zip_cons_cons]
      refine List.chain'_cons'.mpr ⟨?_, ih h.tail⟩
      intro p hp
      cases xs with
      | nil => simp at hp
      | cons x' xs' =>
        cases ys with
        | nil => simp at hp
        | cons y' ys' =>
          simp only [List.zip_cons_cons, List.head?_cons, Option.mem_def,
            Option.some.injEq] at hp
          rw [← hp]
          exact (List.chain'_cons.mp h).1

/-! ## Evaluation lemmas for `interpPts` -/

theorem interpPts_cons_ge {q : ℚ} {p0 p1 : ℚ × ℚ} {P : List (ℚ × ℚ)}
    (h0 : ¬ q < p0.1) (h1 : ¬ q < p1.1) :
    interpPts q (p0 :: p1 :: P) = interpPts q (p1 :: P) := by
  simp [interpPts, h0, h1]

theorem interpPts_head_le {q : ℚ} {p0 : ℚ × ℚ} {P : List (ℚ × ℚ)}
    (h : ptsSorted (p0 :: P)) (hq : q ≤ p0.1) :
    interpPts q (p0 :: P) = p0.2 := by
  cases P with
  | nil => rfl
  | cons p1 P =>
    have h01 : p0.1 < p1.1 := (List.chain'_cons.mp h).1
    rcases lt_or_eq_of_le hq with hlt | heq
    · simp [interpPts, hlt]
    · simp [interpPts, heq, lt_irrefl, h01, sub_self]

theorem interpPts_last_le {P : List (ℚ × ℚ)} (h : ptsSorted P) {p : ℚ × ℚ}
    (hl : P.getLast? = some p) {q : ℚ} (hq : p.1 ≤ q) : interpPts q P = p.2 := by
  induction P with
  | nil => simp at hl
  | cons p0 P ih =>
    cases P with
    | nil =>
      simp at hl
      rw [← hl]
      rfl
    | cons p1 P' =>
      have hl' : (p1 :: P').getLast? = some p := by rwa [List.getLast?_cons_cons] at hl
      have h' : ptsSorted (p1 :: P') := h.tail
      have hp1p : p1.1 ≤ p.1 := by
        rcases List.mem_cons.mp (mem_of_getLast?_eq hl') with heq | hm
        · exact le_of_eq (by rw [heq])
        · exact le_of_lt ((List.pairwise_cons.mp (ptsSorted_pairwise h')).1 p hm)
      have h01 : p0.1 < p1.1 := (List.chain'_cons.mp h).1
      rw [interpPts_cons_ge (not_lt.mpr (le_trans (le_of_lt h01) (le_trans hp1p hq)))
        (not_lt.mpr (le_trans hp1p hq))]
      exact ih h' hl'

theorem interpPts_tie {P : List (ℚ × ℚ)} (h : ptsSorted P) {p : ℚ × ℚ} (hp : p ∈ P) :
    interpPts p.1 P = p.2 := by
  induction P with
  | nil => cases hp
  | cons p0 P ih =>
    rcases List.mem_cons.mp hp with heq | hm
    · subst heq
      exact interpPts_head_le h le_rfl
    · have h0p : p0.1 < p.1 := (List.pairwise_cons.mp (ptsSorted_pairwise h)).1 p hm
      cases P with
      | nil => cases hm
      | cons p1 P' =>
        have hp1 : p1.1 ≤ p.1 := by
          rcases List.mem_cons.mp hm with heq1 | hm1
          · exact le_of_eq (by rw [heq1])
          · exact le_of_lt ((List.pairwise_cons.mp (ptsSorted_pairwise h.tail)).1 p hm1)
        rw [interpPts_cons_ge (not_lt.mpr (le_of_lt h0p)) (not_lt.mpr hp1)]
        exact ih h.tail hm

theorem interpPts_segment {q : ℚ} :
    ∀ (A : List (ℚ × ℚ)) {u v : ℚ × ℚ} {B : List (ℚ × ℚ)},
      ptsSorted (A ++ u :: v :: B) → u.1 ≤ q → q ≤ v.1 →
      interpPts q (A ++ u :: v :: B) =
        u.2 + (v.2 - u.2) * (q - u.1) / (v.1 - u.1) := by
  intro A
  induction A with
  | nil =>
    intro u v B h hu hv
    simp only [List.nil_append]
    have huv : u.1 < v.1 := (List.chain'_cons.mp h).1
    by_cases h2 : q < v.1
    · simp [interpPts, not_lt.mpr hu, h2]
    · have hq : q = v.1 := le_antisymm hv (not_lt.mp h2)
      rw [interpPts_cons_ge (not_lt.mpr hu) h2,
        interpPts_head_le h.tail (le_of_eq hq), hq]
      have hne : v.1 - u.1 ≠ 0 := ne_of_gt (sub_pos.mpr huv)
      field_simp
  | cons a A ih =>
    intro u v B h hu hv
    have h' : ptsSorted (A ++ u :: v :: B) := by
      rw [List.cons_append] at h
      exact h.tail
    have ha_u : a.1 < u.1 := by
      have hp := ptsSorted_pairwise (show ptsSorted (a :: (A ++ u :: v :: B)) from h)
      exact (List.pairwise_cons.mp hp).1 u (by simp)
    have key : interpPts q (a :: (A ++ u :: v :: B)) = interpPts q (A ++ u :: v :: B) := by
      cases A with
      | nil =>
        simp only [List.nil_append]
        exact interpPts_cons_ge (not_lt.mpr (le_of_lt (lt_of_lt_of_le ha_u hu)))
          (not_lt.mpr hu)
      | cons a' A' =>
        have ha' : a'.1 < u.1 := by
          have hp' := ptsSorted_pairwise
            (show ptsSorted (a' :: (A' ++ u :: v :: B)) from h')
          exact (List.pairwise_cons.mp hp').1 u (by simp)
        simp only [List.cons_append]
        exact interpPts_cons_ge (not_lt.mpr (le_of_lt (lt_of_lt_of_le ha_u hu)))
          (not_lt.mpr (le_of_lt (lt_of_lt_of_le ha' hu)))
    rw [List.cons_append, key]
    exact ih h' hu hv

theorem interpPts_exists_segment {q : ℚ} :
    ∀ (P : List (ℚ × ℚ)) (p0 p1 : ℚ × ℚ), ptsSorted (p0 :: p1 :: P) →
      p0.1 ≤ q → (∀ l ∈ (p0 :: p1 :: P).getLast?, q ≤ l.1) →
      ∃ A u v B, p0 :: p1 :: P = A ++ u :: v :: B ∧ u.1 ≤ q ∧ q ≤ v.1 := by
  intro P
  induction P with
  | nil =>
    intro p0 p1 h h0 hl
    exact ⟨[], p0, p1, [], rfl, h0, hl p1 (by simp)⟩
  | cons p2 P' ih =>
    intro p0 p1 h h0 hl
    by_cases hc : q ≤ p1.1
    · exact ⟨[], p0, p1, p2 :: P', rfl, h0, hc⟩
    · push_neg at hc
      obtain ⟨A, u, v, B, heq, hu, hv⟩ := ih p1 p2 h.tail (le_of_lt hc)
        (fun l hl' => hl l (by rw [List.getLast?_cons_cons]; exact hl'))
      exact ⟨p0 :: A, u, v, B, by rw [List.cons_append, ← heq], hu, hv⟩

theorem interpPts_snd_range :
    ∀ (P : List (ℚ × ℚ)), ptsSorted P → sndMono P → ∀ (q : ℚ),
      (∀ p ∈ P.head?, p.2 ≤ interpPts q P) ∧
      (∀ p ∈ P.getLast?, interpPts q P ≤ p.2) := by
  intro P
  induction P with
  | nil => intro _ _ q; constructor <;> intro p hp <;> simp at hp
  | cons p0 P ih =>
    intro h hm q
    cases P with
    | nil =>
      constructor <;> intro p hp <;> simp at hp <;> rw [← hp]
      · exact le_refl _
      · exact le_refl _
    | cons p1 P' =>
      obtain ⟨ih1, ih2⟩ := ih h.tail hm.tail q
      have h01 : p0.1 < p1.1 := (List.chain'_cons.mp h).1
      have hm01 : p0.2 ≤ p1.2 := (List.chain'_cons.mp hm).1
      have hd : (0 : ℚ) < p1.1 - p0.1 := sub_pos.mpr h01
      have t1 : p1.2 ≤ interpPts q (p1 :: P') := ih1 p1 (by simp)
      constructor
      · intro p hp
        simp at hp
        rw [← hp]
        by_cases hq0 : q < p0.1
        · simp [interpPts, hq0]
        · by_cases hq1 : q < p1.1
          · simp only [interpPts, if_neg hq0, if_pos hq1]
            have hnum : 0 ≤ (p1.2 - p0.2) * (q - p0.1) / (p1.1 - p0.1) :=
              div_nonneg
                (mul_nonneg (sub_nonneg.mpr hm01) (sub_nonneg.mpr (not_lt.mp hq0)))
                (le_of_lt hd)
            linarith
          · rw [interpPts_cons_ge hq0 hq1]
            exact le_trans hm01 t1
      · intro p hp
        rw [List.getLast?_cons_cons] at hp
        have hlast := ih2 p hp
        have h1p : p1.2 ≤ p.2 := by
          rcases List.mem_cons.mp (mem_of_getLast?_eq hp) with he | hm'
          · exact le_of_eq (by rw [he])
          · exact (List.pairwise_cons.mp (sndMono_pairwise hm.tail)).1 p hm'
        by_cases hq0 : q < p0.1
        · simp only [interpPts, if_pos hq0]
          exact le_trans hm01 h1p
        · by_cases hq1 : q < p1.1
          · simp only [interpPts, if_neg hq0, if_pos hq1]
            have hle : (p1.2 - p0.2) * (q - p0.1) / (p1.1 - p0.1) ≤ p1.2 - p0.2 := by
              rw [div_le_iff hd]
              exact mul_le_mul_of_nonneg_left (sub_le_sub_right (le_of_lt hq1) _)
                (sub_nonneg.mpr hm01)
            linarith
          · rw [interpPts_cons_ge hq0 hq1]
            exact hlast

theorem interpPts_mono :
    ∀ (P : List (ℚ × ℚ)), ptsSorted P → sndMono P → ∀ {q1 q2 : ℚ}, q1 ≤ q2 →
      interpPts q1 P ≤ interpPts q2 P := by
  intro P
  induction P with
  | nil => intro _ _ q1 q2 _; exact le_refl _
  | cons p0 P ih =>
    intro h hm q1 q2 hq
    cases P with
    | nil => exact le_refl _
    | cons p1 P' =>
      have h01 : p0.1 < p1.1 := (List.chain'_cons.mp h).1
      have hm01 : p0.2 ≤ p1.2 := (List.chain'_cons.mp hm).1
      have hd : (0 : ℚ) < p1.1 - p0.1 := sub_pos.mpr h01
      by_cases hq2 : q2 < p0.1
      · have hq1 : q1 < p0.1 := lt_of_le_of_lt hq hq2
        simp [interpPts, hq1, hq2]
      · by_cases hq1 : q1 < p0.1
        · have hr := (interpPts_snd_range (p0 :: p1 :: P') h hm q2).1 p0 (by simp)
          simp only [interpPts, if_pos hq1]
          exact hr
        · by_cases hq2' : q2 < p1.1
          · have hq1' : q1 < p1.1 := lt_of_le_of_lt hq hq2'
            simp only [interpPts, if_neg hq1, if_neg hq2, if_pos hq1', if_pos hq2']
            have hmul : (p1.2 - p0.2) * (q1 - p0.1) ≤ (p1.2 - p0.2) * (q2 - p0.1) :=
              mul_le_mul_of_nonneg_left (sub_le_sub_right hq _) (sub_nonneg.mpr hm01)
            have := (div_le_div_right hd).mpr hmul
            linarith
          · by_cases hq1'' : q1 < p1.1
            · rw [interpPts_cons_ge hq2 hq2']
              have hRHS : p1.2 ≤ interpPts q2 (p1 :: P') :=
                (interpPts_snd_range (p1 :: P') h.tail hm.tail q2).1 p1 (by simp)
              have hLHS : interpPts q1 (p0 :: p1 :: P') ≤ p1.2 := by
                simp only [interpPts, if_neg hq1, if_pos hq1'']
                have hle : (p1.2 - p0.2) * (q1 - p0.1) / (p1.1 - p0.1) ≤ p1.2 - p0.2 := by
                  rw [div_le_iff hd]
                  exact mul_le_mul_of_nonneg_left (sub_le_sub_right (le_of_lt hq1'') _)
                    (sub_nonneg.mpr hm01)
                linarith
              exact le_trans hLHS hRHS
            · rw [interpPts_cons_ge hq1 hq1'', interpPts_cons_ge hq2 hq2']
              exact ih h.tail hm.tail hq

theorem interpPts_strictMonoOn :
    ∀ (P : List (ℚ × ℚ)), ptsSorted P → sndStrict P → ∀ {q1 q2 : ℚ}, q1 < q2 →
      (∀ p ∈ P.head?, p.1 ≤ q1) → (∀ p ∈ P.getLast?, q2 ≤ p.1) → P ≠ [] →
      interpPts q1 P < interpPts q2 P := by
  intro P
  induction P with
  | nil => intro _ _ q1 q2 _ _ _ hne; exact absurd rfl hne
  | cons p0 P ih =>
    intro h hs q1 q2 h12 hlo hhi _
    have hmono : sndMono (p0 :: P) := hs.imp (fun a b h => le_of_lt h)
    cases P with
    | nil =>
      have l1 := hlo p0 (by simp)
      have l2 := hhi p0 (by simp)
      exact absurd h12 (not_lt.mpr (le_trans l2 l1))
    | cons p1 P' =>
      have h01 : p0.1 < p1.1 := (List.chain'_cons.mp h).1
      have hs01 : p0.2 < p1.2 := (List.chain'_cons.mp hs).1
      have hd : (0 : ℚ) < p1.1 - p0.1 := sub_pos.mpr h01
      have hq1lo : p0.1 ≤ q1 := hlo p0 (by simp)
      have hq2lo : p0.1 ≤ q2 := le_trans hq1lo (le_of_lt h12)
      by_cases hc : q2 ≤ p1.1
      · have hq1' : q1 < p1.1 := lt_of_lt_of_le h12 hc
        have hL : interpPts q1 (p0 :: p1 :: P') =
            p0.2 + (p1.2 - p0.2) * (q1 - p0.1) / (p1.1 - p0.1) := by
          simp [interpPts, not_lt.mpr hq1lo, hq1']
        have hR : interpPts q2 (p0 :: p1 :: P') =
            p0.2 + (p1.2 - p0.2) * (q2 - p0.1) / (p1.1 - p0.1) := by
          rcases lt_or_eq_of_le hc with hlt | heq
          · simp [interpPts, not_lt.mpr hq2lo, hlt]
          · rw [interpPts_cons_ge (not_lt.mpr hq2lo) (not_lt.mpr (le_of_eq heq.symm)),
              interpPts_head_le h.tail (le_of_eq heq), heq]
            have hne : p1.1 - p0.1 ≠ 0 := ne_of_gt hd
            field_simp
        rw [hL, hR]
        have hmul : (p1.2 - p0.2) * (q1 - p0.1) < (p1.2 - p0.2) * (q2 - p0.1) :=
          mul_lt_mul_of_pos_left (by linarith) (sub_pos.mpr hs01)
        have := (div_lt_div_right hd).mpr hmul
        linarith
      · push_neg at hc
        have hR2 : interpPts q2 (p0 :: p1 :: P') = interpPts q2 (p1 :: P') :=
          interpPts_cons_ge (not_lt.mpr hq2lo) (not_lt.mpr (le_of_lt hc))
        by_cases hq1c : q1 < p1.1
        · have hL : interpPts q1 (p0 :: p1 :: P') =
              p0.2 + (p1.2 - p0.2) * (q1 - p0.1) / (p1.1 - p0.1) := by
            simp [interpPts, not_lt.mpr hq1lo, hq1c]
          have hLlt : interpPts q1 (p0 :: p1 :: P') < p1.2 := by
            rw [hL]
            have hlt : (p1.2 - p0.2) * (q1 - p0.1) / (p1.1 - p0.1) < p1.2 - p0.2 := by
              rw [div_lt_iff hd]
              exact mul_lt_mul_of_pos_left (by linarith) (sub_pos.mpr hs01)
            linarith
          have hRge : p1.2 ≤ interpPts q2 (p1 :: P') :=
            (interpPts_snd_range (p1 :: P') h.tail hmono.tail q2).1 p1 (by simp)
          rw [hR2]
          exact lt_of_lt_of_le hLlt hRge
        · rw [interpPts_cons_ge (not_lt.mpr hq1lo) hq1c, hR2]
          apply ih h.tail hs.tail h12
          · intro p hp
            simp at hp
            rw [← hp]
            exact not_lt.mp hq1c
          · intro p hp
            exact hhi p (by rw [List.getLast?_cons_cons]; exact hp)
          · simp

/-- Convex-combination bound: a linear interpolation between two points each
within `e` of a given affine function stays within `e` of that function. -/
theorem affine_comb_abs_le {u v q A B ya yb e : ℚ} (huv : u < v) (hq1 : u ≤ q)
    (hq2 : q ≤ v) (ha : |ya - A| ≤ e) (hb : |yb - B| ≤ e) :
    |(ya + (yb - ya) * (q - u) / (v - u)) - (A + (B - A) * (q - u) / (v - u))| ≤ e := by
  have hd : (0 : ℚ) < v - u := sub_pos.mpr huv
  rw [mul_div_assoc, mul_div_assoc]
  set l := (q - u) / (v - u) with hl
  have hl0 : 0 ≤ l := div_nonneg (by linarith) (le_of_lt hd)
  have hl1 : l ≤ 1 := (div_le_one hd).mpr (by linarith)
  have key : ya + (yb - ya) * l - (A + (B - A) * l) =
      (1 - l) * (ya - A) + l * (yb - B) := by ring
  rw [key]
  calc |(1 - l) * (ya - A) + l * (yb - B)|
      ≤ |(1 - l) * (ya - A)| + |l * (yb - B)| := abs_add _ _
    _ = (1 - l) * |ya - A| + l * |yb - B| := by
        rw [abs_mul, abs_mul, abs_of_nonneg (by linarith : (0:ℚ) ≤ 1 - l),
          abs_of_nonneg hl0]
    _ ≤ (1 - l) * e + l * e :=
        add_le_add (mul_le_mul_of_nonneg_left ha (by linarith))
          (mul_le_mul_of_nonneg_left hb hl0)
    _ = e := by ring

/-! ## Coordinate-level bridging lemmas -/

theorem coordPts_sorted (c : LinearCoordinate) (hx : List.Chain' (· < ·) c.tie_indices) :
    ptsSorted (coordPts c) :=
  chain'_zip_left (castIdx_strictInc hx)

theorem coordPtsInv_sorted (c : LinearCoordinate) (hy : isStrictlyIncreasing c.tie_values) :
    ptsSorted (coordPtsInv c) :=
  chain'_zip_left hy

theorem coordPts_sndStrict (c : LinearCoordinate)
    (hy : isStrictlyIncreasing c.tie_values) : sndStrict (coordPts c) :=
  chain'_zip_right hy

theorem coordPtsInv_sndStrict (c : LinearCoordinate)
    (hx : List.Chain' (· < ·) c.tie_indices) : sndStrict (coordPtsInv c) :=
  chain'_zip_right (castIdx_strictInc hx)

theorem coordPts_mem (c : LinearCoordinate)
    (hlen : c.tie_indices.length = c.tie_values.length) (k : ℕ)
    (hk : k < c.tie_indices.length) :
    (((c.tie_indices.get ⟨k, hk⟩ : ℤ) : ℚ), c.tie_values.get ⟨k, hlen ▸ hk⟩) ∈
      coordPts c := by
  have hz : k < (coordPts c).length := by
    simp [coordPts, castList, ← hlen, hk]
  have hget : (coordPts c).get ⟨k, hz⟩ =
      (((c.tie_indices.get ⟨k, hk⟩ : ℤ) : ℚ), c.tie_values.get ⟨k, hlen ▸ hk⟩) := by
    show ((castList c.tie_indices).zip c.tie_values).get ⟨k, hz⟩ = _
    rw [List.get_zip]
    refine Prod.ext ?_ ?_ <;> simp [castList]
  rw [← hget]
  exact List.get_mem _ _ _

theorem coordPtsInv_mem (c : LinearCoordinate)
    (hlen : c.tie_indices.length = c.tie_values.length) (k : ℕ)
    (hk : k < c.tie_indices.length) :
    (c.tie_values.get ⟨k, hlen ▸ hk⟩, ((c.tie_indices.get ⟨k, hk⟩ : ℤ) : ℚ)) ∈
      coordPtsInv c := by
  have hz : k < (coordPtsInv c).length := by
    simp [coordPtsInv, castList, ← hlen, hk]
  have hget : (coordPtsInv c).get ⟨k, hz⟩ =
      (c.tie_values.get ⟨k, hlen ▸ hk⟩, ((c.tie_indices.get ⟨k, hk⟩ : ℤ) : ℚ)) := by
    show (c.tie_values.zip (castList c.tie_indices)).get ⟨k, hz⟩ = _
    rw [List.get_zip]
    refine Prod.ext ?_ ?_ <;> simp [castList]
  rw [← hget]
  exact List.get_mem _ _ _

theorem get_index_nearest (c : LinearCoordinate) (hy : isStrictlyIncreasing c.tie_values)
    (hne : c.tie_values ≠ []) (hlen : c.tie_values.length = c.tie_indices.length)
    (v : ℚ) : c.get_index v "nearest" = .ok (rint (interpPts v (coordPtsInv c))) := by
  rw [get_index_bind c hy hne hlen v "nearest"]
  rfl

theorem get_index_before (c : LinearCoordinate) (hy : isStrictlyIncreasing c.tie_values)
    (hne : c.tie_values ≠ []) (hlen : c.tie_values.length = c.tie_indices.length)
    (v : ℚ) : c.get_index v "before" = .ok ⌊interpPts v (coordPtsInv c)⌋ := by
  rw [get_index_bind c hy hne hlen v "before"]
  rfl

theorem get_index_after (c : LinearCoordinate) (hy : isStrictlyIncreasing c.tie_values)
    (hne : c.tie_values ≠ []) (hlen : c.tie_values.length = c.tie_indices.length)
    (v : ℚ) : c.get_index v "after" = .ok ⌈interpPts v (coordPtsInv c)⌉ := by
  rw [get_index_bind c hy hne hlen v "after"]
  rfl

theorem rint_intCast (n : ℤ) : rint ((n : ℤ) : ℚ) = n := by
  rw [rint]
  norm_num

/-! ## C1: round-trip at tie points -/

/-- C1 counterexample: with strictly *decreasing* tie values (permitted by the
claim's "strictly monotonic" hypothesis), `get_value` at the tie index `0`
returns the tie value `1`, but `get_index(1, "nearest")` raises the
invalid-domain error instead of returning the tie index `0`, so the round
trip fails. -/
theorem C1_counterexample_decreasing_values :
    (⟨[0, 1], [1, 0]⟩ : LinearCoordinate).get_value 0 = .ok 1 ∧
    (⟨[0, 1], [1, 0]⟩ : LinearCoordinate).get_index 1 "nearest" =
      .error .invalidDomain := by
  constructor
  · norm_num [LinearCoordinate.get_value, linearInterpolate, isStrictlyIncreasing,
      castList, ScaleOffset.floatize, ScaleOffset.direct, ScaleOffset.inverse,
      npInterp, interpPts, Except.map]
  · have h : linearInterpolate 1 ([1, 0] : List ℚ) (castList [0, 1]) =
        .error .invalidDomain := by
      norm_num [linearInterpolate, isStrictlyIncreasing, List.chain'_cons]
    rw [LinearCoordinate.get_index, h]
    rfl

/-- C1 (amended): for every coordinate with strictly increasing integer tie
indices and strictly *increasing* tie values (equal lengths), and every tie
point position `k`, `get_index(get_value(tie_indices[k]), "nearest")` returns
exactly `tie_indices[k]`. -/
theorem C1_tie_point_roundtrip (c : LinearCoordinate)
    (hx : List.Chain' (· < ·) c.tie_indices) (hy : isStrictlyIncreasing c.tie_values)
    (hlen : c.tie_indices.length = c.tie_values.length)
    (k : ℕ) (hk : k < c.tie_indices.length) :
    ∃ v, c.get_value ((c.tie_indices.get ⟨k, hk⟩ : ℤ) : ℚ) = .ok v ∧
      c.get_index v "nearest" = .ok (c.tie_indices.get ⟨k, hk⟩) := by
  have hne : c.tie_indices ≠ [] := by
    intro h0
    rw [h0] at hk
    simp at hk
  have hyne : c.tie_values ≠ [] := by
    intro h0
    rw [h0] at hlen
    simp at hlen
    exact hne hlen
  refine ⟨c.tie_values.get ⟨k, hlen ▸ hk⟩, ?_, ?_⟩
  · rw [get_value_eq c hx hne hlen]
    have htie := interpPts_tie (coordPts_sorted c hx) (coordPts_mem c hlen k hk)
    rw [htie]
  · rw [get_index_nearest c hy hyne hlen.symm]
    have htie := interpPts_tie (coordPtsInv_sorted c hy) (coordPtsInv_mem c hlen k hk)
    rw [htie, rint_intCast]

/-- C1 witness: the amended round-trip at the coordinate `indices=[0,10]`,
`values=[0,10]`, tie position `1`. -/
theorem C1_tie_point_roundtrip_witness :
    ∃ v, (⟨[0, 10], [0, 10]⟩ : LinearCoordinate).get_value
        ((([0, 10] : List ℤ).get ⟨1, by simp⟩ : ℤ) : ℚ) = .ok v ∧
      (⟨[0, 10], [0, 10]⟩ : LinearCoordinate).get_index v "nearest" =
        .ok (([0, 10] : List ℤ).get ⟨1, by simp⟩) :=
  C1_tie_point_roundtrip ⟨[0, 10], [0, 10]⟩ (by norm_num [List.chain'_cons])
    (by norm_num [isStrictlyIncreasing, List.chain'_cons]) (by simp) 1 (by simp)

/-! ## Slice lemmas -/

theorem chain'_bracket :
    ∀ (L : List ℤ) (a e : ℤ), List.Chain' (· < ·) L →
      (∀ i ∈ L, a < i) → (∀ i ∈ L, i < e) → a < e →
      List.Chain' (· < ·) (a :: L ++ [e]) := by
  intro L
  induction L with
  | nil =>
    intro a e _ _ _ hae
    exact List.chain'_pair.mpr hae
  | cons i L ih =>
    intro a e hL hlo hhi hae
    simp only [List.cons_append]
    refine List.chain'_cons.mpr ⟨hlo i (by simp), ?_⟩
    have hp := (List.pairwise_cons.mp (List.chain'_iff_pairwise.mp hL)).1
    exact ih i e hL.tail hp (fun j hj => hhi j (List.mem_cons_of_mem _ hj))
      (hhi i (by simp))

theorem slice_eq (c : LinearCoordinate) (hx : List.Chain' (· < ·) c.tie_indices)
    (hne : c.tie_indices ≠ []) (hlen : c.tie_indices.length = c.tie_values.length)
    (a b : ℤ) :
    c.slice a b = .ok
      ⟨((a :: ((c.tie_indices.zip c.tie_values).filter
          (fun p => decide (a < p.1 ∧ p.1 < b - 1))).map Prod.fst) ++ [b - 1]).map
            (fun i => i - a),
        (interpPts ((a : ℤ) : ℚ) (coordPts c) :: ((c.tie_indices.zip c.tie_values).filter
          (fun p => decide (a < p.1 ∧ p.1 < b - 1))).map Prod.snd) ++
          [interpPts ((b - 1 : ℤ) : ℚ) (coordPts c)]⟩ := by
  rw [LinearCoordinate.slice, get_value_eq c hx hne hlen, get_value_eq c hx hne hlen]
  rfl

theorem slice_ok (c : LinearCoordinate) (hx : List.Chain' (· < ·) c.tie_indices)
    (hne : c.tie_indices ≠ []) (hlen : c.tie_indices.length = c.tie_values.length)
    (a b : ℤ) (hab : a + 1 < b) :
    ∃ c', c.slice a b = .ok c' ∧
      (∃ MID MID2 : List _, MID.length = MID2.length ∧
        c'.tie_indices = 0 :: MID ++ [b - 1 - a] ∧
        c'.tie_values = interpPts ((a : ℤ) : ℚ) (coordPts c) :: MID2 ++
          [interpPts ((b - 1 : ℤ) : ℚ) (coordPts c)]) ∧
      List.Chain' (· < ·) c'.tie_indices ∧
      c'.tie_indices.length = c'.tie_values.length ∧
      2 ≤ c'.tie_indices.length := by
  have hslice := slice_eq c hx hne hlen a b
  have hsubl : List.Sublist (((c.tie_indices.zip c.tie_values).filter
      (fun p => decide (a < p.1 ∧ p.1 < b - 1))).map Prod.fst) c.tie_indices := by
    have h1 : List.Sublist ((c.tie_indices.zip c.tie_values).filter
        (fun p => decide (a < p.1 ∧ p.1 < b - 1))) (c.tie_indices.zip c.tie_values) :=
      List.filter_sublist _
    have h2 := h1.map Prod.fst
    rwa [List.map_fst_zip _ _ (le_of_eq hlen)] at h2
  have hchainK : List.Chain' (· < ·) (((c.tie_indices.zip c.tie_values).filter
      (fun p => decide (a < p.1 ∧ p.1 < b - 1))).map Prod.fst) :=
    List.chain'_iff_pairwise.mpr
      ((List.chain'_iff_pairwise.mp hx).sublist hsubl)
  have hmemK : ∀ i ∈ ((c.tie_indices.zip c.tie_values).filter
      (fun p => decide (a < p.1 ∧ p.1 < b - 1))).map Prod.fst, a < i ∧ i < b - 1 := by
    intro i hi
    obtain ⟨p, hp, rfl⟩ := List.mem_map.mp hi
    have h3 := List.of_mem_filter hp
    simpa using h3
  have hbr : List.Chain' (· < ·) ((a :: ((c.tie_indices.zip c.tie_values).filter
      (fun p => decide (a < p.1 ∧ p.1 < b - 1))).map Prod.fst) ++ [b - 1]) :=
    chain'_bracket _ a (b - 1) hchainK (fun i hi => (hmemK i hi).1)
      (fun i hi => (hmemK i hi).2) (by omega)
  refine ⟨_, hslice, ?_, ?_, ?_, ?_⟩
  · refine ⟨(((c.tie_indices.zip c.tie_values).filter
        (fun p => decide (a < p.1 ∧ p.1 < b - 1))).map Prod.fst).map (fun i => i - a),
      ((c.tie_indices.zip c.tie_values).filter
        (fun p => decide (a < p.1 ∧ p.1 < b - 1))).map Prod.snd, by simp, ?_, rfl⟩
    show ((a :: _) ++ [b - 1]).map (fun i => i - a) = _
    simp [sub_self]
  · show List.Chain' (· < ·) (((a :: _) ++ [b - 1]).map (fun i => i - a))
    rw [List.chain'_map]
    exact hbr.imp (fun i j h => by omega)
  · simp
  · simp

/-! ## C8: slice and the data-model invariant -/

/-- C8 counterexample: the one-point range `slice(0, 1)` (stop = start + 1)
produces tie indices `[0, 0]`, which are *not* strictly increasing, so the
invariant is violated exactly in the edge case the claim includes. -/
theorem C8_counterexample_one_point_slice :
    (⟨[0, 10], [0, 10]⟩ : LinearCoordinate).slice 0 1 = .ok ⟨[0, 0], [0, 0]⟩ ∧
    ¬ List.Chain' (· < ·) ([0, 0] : List ℤ) := by
  constructor
  · have h := slice_eq ⟨[0, 10], [0, 10]⟩ (by norm_num [List.chain'_cons]) (by simp)
      (by simp) 0 1
    rw [h]
    norm_num [coordPts, castList, interpPts, List.filter]
  · simp [List.chain'_cons]

/-- C8 (amended): for every coordinate satisfying the invariant and every
index range `[a, b)` with `a + 1 < b` (at least two indices), `slice` returns
a coordinate with strictly increasing tie indices, equal-length arrays and at
least 2 tie points.  (For the one-point range `b = a + 1` the returned tie
indices are `[0, 0]`, breaking strict monotonicity — see the
counterexample.) -/
theorem C8_slice_preserves_invariant (c : LinearCoordinate)
    (hx : List.Chain' (· < ·) c.tie_indices) (hne : c.tie_indices ≠ [])
    (hlen : c.tie_indices.length = c.tie_values.length)
    (a b : ℤ) (hab : a + 1 < b) :
    ∃ c', c.slice a b = .ok c' ∧ List.Chain' (· < ·) c'.tie_indices ∧
      c'.tie_indices.length = c'.tie_values.length ∧ 2 ≤ c'.tie_indices.length := by
  obtain ⟨c', hs, -, hchain, hl, h2⟩ := slice_ok c hx hne hlen a b hab
  exact ⟨c', hs, hchain, hl, h2⟩

/-- C8 witness: slicing `indices=[0,10]`, `values=[0,10]` to `[2, 7)`. -/
theorem C8_slice_preserves_invariant_witness :
    ∃ c', (⟨[0, 10], [0, 10]⟩ : LinearCoordinate).slice 2 7 = .ok c' ∧
      List.Chain' (· < ·) c'.tie_indices ∧
      c'.tie_indices.length = c'.tie_values.length ∧ 2 ≤ c'.tie_indices.length :=
  C8_slice_preserves_invariant ⟨[0, 10], [0, 10]⟩ (by norm_num [List.chain'_cons])
    (by simp) (by simp) 2 7 (by norm_num)

/-! ## C3: slice re-basing and boundary values -/

/-- C3 counterexample: for the one-point range `slice(0, 1)` (allowed by the
claim, which only requires `a < b`) the result has duplicated tie indices
`[0, 0]`, and its `value_at(0)` raises the invalid-domain error instead of
returning the original `value_at(0) = 0`. -/
theorem C3_counterexample_one_point_slice :
    (⟨[0, 10], [0, 10]⟩ : LinearCoordinate).slice 0 1 = .ok ⟨[0, 0], [0, 0]⟩ ∧
    (⟨[0, 0], [0, 0]⟩ : LinearCoordinate).get_value 0 = .error .invalidDomain ∧
    (⟨[0, 10], [0, 10]⟩ : LinearCoordinate).get_value 0 = .ok 0 := by
  refine ⟨?_, ?_, ?_⟩
  · have h := slice_eq ⟨[0, 10], [0, 10]⟩ (by norm_num [List.chain'_cons]) (by simp)
      (by simp) 0 1
    rw [h]
    norm_num [coordPts, castList, interpPts, List.filter]
  · norm_num [LinearCoordinate.get_value, linearInterpolate, isStrictlyIncreasing,
      castList, List.chain'_cons]
  · norm_num [LinearCoordinate.get_value, linearInterpolate, isStrictlyIncreasing,
      castList, ScaleOffset.floatize, ScaleOffset.direct, ScaleOffset.inverse,
      npInterp, interpPts, Except.map, List.chain'_cons]

/-- C3 (amended): for every valid coordinate and every index range `[a, b)`
with `a + 1 < b`, `slice` returns a re-based coordinate whose first tie index
is 0, whose `value_at(0)` equals the original `value_at(a)` and whose
`value_at(b-a-1)` equals the original `value_at(b-1)`.  (For `b = a + 1` the
new coordinate's `value_at` raises instead — see the counterexample.) -/
theorem C3_slice_rebasing (c : LinearCoordinate)
    (hx : List.Chain' (· < ·) c.tie_indices) (hne : c.tie_indices ≠ [])
    (hlen : c.tie_indices.length = c.tie_values.length)
    (a b : ℤ) (hab : a + 1 < b) :
    ∃ c' v0 v1, c.slice a b = .ok c' ∧
      c'.tie_indices.head? = some 0 ∧
      c.get_value ((a : ℤ) : ℚ) = .ok v0 ∧ c'.get_value 0 = .ok v0 ∧
      c.get_value ((b - 1 : ℤ) : ℚ) = .ok v1 ∧
      c'.get_value ((b - 1 - a : ℤ) : ℚ) = .ok v1 := by
  obtain ⟨c', hs, ⟨MID, MID2, hmlen, hti, htv⟩, hchain, hlen', h2⟩ :=
    slice_ok c hx hne hlen a b hab
  have hne' : c'.tie_indices ≠ [] := by
    rw [hti]
    simp
  have hcp : coordPts c' =
      (((0 : ℚ) :: castList MID) ++ [((b - 1 - a : ℤ) : ℚ)]).zip
        ((interpPts ((a : ℤ) : ℚ) (coordPts c) :: MID2) ++
          [interpPts ((b - 1 : ℤ) : ℚ) (coordPts c)]) := by
    show (castList c'.tie_indices).zip c'.tie_values = _
    rw [hti, htv]
    congr 1
    simp [castList]
  have hlen12 : ((0 : ℚ) :: castList MID).length =
      (interpPts ((a : ℤ) : ℚ) (coordPts c) :: MID2).length := by
    simp [castList, hmlen]
  refine ⟨c', _, _, hs, ?_, get_value_eq c hx hne hlen _, ?_,
    get_value_eq c hx hne hlen _, ?_⟩
  · rw [hti]
    rfl
  · rw [get_value_eq c' hchain hne' hlen']
    congr 1
    apply interpPts_tie (coordPts_sorted c' hchain)
      (p := ((0 : ℚ), interpPts ((a : ℤ) : ℚ) (coordPts c)))
    rw [hcp]
    rw [show ((0 : ℚ) :: castList MID) ++ [((b - 1 - a : ℤ) : ℚ)] =
      (0 : ℚ) :: (castList MID ++ [((b - 1 - a : ℤ) : ℚ)]) from rfl]
    rw [show (interpPts ((a : ℤ) : ℚ) (coordPts c) :: MID2) ++
        [interpPts ((b - 1 : ℤ) : ℚ) (coordPts c)] =
      interpPts ((a : ℤ) : ℚ) (coordPts c) :: (MID2 ++
        [interpPts ((b - 1 : ℤ) : ℚ) (coordPts c)]) from rfl]
    rw [List.zip_cons_cons]
    exact List.mem_cons_self _ _
  · rw [get_value_eq c' hchain hne' hlen']
    congr 1
    apply interpPts_tie (coordPts_sorted c' hchain)
      (p := (((b - 1 - a : ℤ) : ℚ), interpPts ((b - 1 : ℤ) : ℚ) (coordPts c)))
    rw [hcp, List.zip_append hlen12]
    apply List.mem_append_right
    simp

/-- C3 witness: slicing `indices=[0,10]`, `values=[0,10]` to `[2, 7)`. -/
theorem C3_slice_rebasing_witness :
    ∃ c' v0 v1, (⟨[0, 10], [0, 10]⟩ : LinearCoordinate).slice 2 7 = .ok c' ∧
      c'.tie_indices.head? = some 0 ∧
      (⟨[0, 10], [0, 10]⟩ : LinearCoordinate).get_value ((2 : ℤ) : ℚ) = .ok v0 ∧
      c'.get_value 0 = .ok v0 ∧
      (⟨[0, 10], [0, 10]⟩ : LinearCoordinate).get_value ((7 - 1 : ℤ) : ℚ) = .ok v1 ∧
      c'.get_value ((7 - 1 - 2 : ℤ) : ℚ) = .ok v1 :=
  C3_slice_rebasing ⟨[0, 10], [0, 10]⟩ (by norm_num [List.chain'_cons]) (by simp)
    (by simp) 2 7 (by norm_num)

/-! ## Inverse-mapping lemmas (for `get_index_slice`) -/

theorem zip_head? {xs ys : List ℚ} {x y : ℚ} (hx : xs.head? = some x)
    (hy : ys.head? = some y) : (xs.zip ys).head? = some (x, y) := by
  cases xs with
  | nil => simp at hx
  | cons a xs =>
    cases ys with
    | nil => simp at hy
    | cons b ys =>
      simp at hx hy
      simp [List.zip_cons_cons, hx, hy]

theorem zip_getLast? :
    ∀ {xs ys : List ℚ}, xs.length = ys.length → ∀ {x y : ℚ},
      xs.getLast? = some x → ys.getLast? = some y →
      (xs.zip ys).getLast? = some (x, y) := by
  intro xs
  induction xs with
  | nil => intro ys _ x y hx _; simp at hx
  | cons a xs ih =>
    intro ys h x y hx hy
    cases ys with
    | nil => simp at hy
    | cons b ys =>
      cases xs with
      | nil =>
        cases ys with
        | nil =>
          simp at hx hy
          simp [hx, hy]
        | cons b' ys' => simp at h
      | cons a' xs' =>
        cases ys with
        | nil => simp at h
        | cons b' ys' =>
          have h' : (a' :: xs').length = (b' :: ys').length := by
            simpa using h
          rw [List.getLast?_cons_cons] at hx hy
          rw [List.zip_cons_cons, List.zip_cons_cons, List.getLast?_cons_cons,
            ← List.zip_cons_cons]
          exact ih h' hx hy

theorem chain'_append_adj {α : Type} {R : α → α → Prop} :
    ∀ (A : List α) {u v : α} {B : List α}, List.Chain' R (A ++ u :: v :: B) → R u v := by
  intro A
  induction A with
  | nil => exact fun h => (List.chain'_cons.mp h).1
  | cons a A ih =>
    intro u v B h
    exact ih ((show List.Chain' R (a :: (A ++ u :: v :: B)) from h).tail)

theorem castList_head? {l : List ℤ} {x : ℤ} (h : l.head? = some x) :
    (castList l).head? = some ((x : ℤ) : ℚ) := by
  cases l with
  | nil => simp at h
  | cons a l =>
    simp at h
    simp [castList, h]

theorem castList_getLast? {l : List ℤ} {x : ℤ} (h : l.getLast? = some x) :
    (castList l).getLast? = some ((x : ℤ) : ℚ) := by
  rw [castList, List.getLast?_map, h]
  rfl


/-- The interpolated fractional index of a value inside the coordinate's value
span lies inside the tie-index span, and mapping it back through the forward
interpolation recovers the value exactly. -/
theorem inverse_interp_spec (c : LinearCoordinate)
    (hx : List.Chain' (· < ·) c.tie_indices) (hy : isStrictlyIncreasing c.tie_values)
    (hlen : c.tie_indices.length = c.tie_values.length)
    {v y0 yl : ℚ} (hy0 : c.tie_values.head? = some y0)
    (hyl : c.tie_values.getLast? = some yl) (hv0 : y0 ≤ v) (hv1 : v ≤ yl)
    {x0 xl : ℤ} (hx0 : c.tie_indices.head? = some x0)
    (hxl : c.tie_indices.getLast? = some xl) (h2 : 2 ≤ c.tie_values.length) :
    ((x0 : ℚ) ≤ interpPts v (coordPtsInv c) ∧ interpPts v (coordPtsInv c) ≤ (xl : ℚ)) ∧
    interpPts (interpPts v (coordPtsInv c)) (coordPts c) = v := by
  have hsortInv : ptsSorted (coordPtsInv c) := coordPtsInv_sorted c hy
  have hheadInv : (coordPtsInv c).head? = some (y0, ((x0 : ℤ) : ℚ)) :=
    zip_head? hy0 (castList_head? hx0)
  have hlastInv : (coordPtsInv c).getLast? = some (yl, ((xl : ℤ) : ℚ)) :=
    zip_getLast? (by simpa [castList] using hlen.symm) hyl (castList_getLast? hxl)
  constructor
  · have hmonoInv : sndMono (coordPtsInv c) :=
      (coordPtsInv_sndStrict c hx).imp (fun a b h => le_of_lt h)
    have hr := interpPts_snd_range (coordPtsInv c) hsortInv hmonoInv v
    exact ⟨hr.1 _ (by rw [hheadInv]; rfl), hr.2 _ (by rw [hlastInv]; rfl)⟩
  · obtain ⟨p0, p1, PP, hshape⟩ : ∃ p0 p1 PP, coordPtsInv c = p0 :: p1 :: PP := by
      rcases hc : coordPtsInv c with - | ⟨p0, - | ⟨p1, PP⟩⟩
      · exfalso
        rw [hc] at hheadInv
        simp at hheadInv
      · exfalso
        have hl2 : (coordPtsInv c).length = 1 := by rw [hc]; rfl
        rw [show coordPtsInv c = c.tie_values.zip (castList c.tie_indices) from rfl] at hl2
        simp [castList, List.length_zip, ← hlen] at hl2
        omega
      · exact ⟨p0, p1, PP, rfl⟩
    have hp0 : p0 = (y0, ((x0 : ℤ) : ℚ)) := by
      rw [hshape] at hheadInv
      simpa using hheadInv
    obtain ⟨A, u, w, B, hdec, hu, hw⟩ :=
      interpPts_exists_segment (q := v) PP p0 p1 (hshape ▸ hsortInv)
        (by rw [hp0]; exact hv0)
        (by
          intro l hl
          rw [← hshape, hlastInv] at hl
          simp at hl
          rw [← hl]
          exact hv1)
    have hInvDec : coordPtsInv c = A ++ u :: w :: B := by rw [hshape, hdec]
    have huw1 : u.1 < w.1 := chain'_append_adj A (hInvDec ▸ hsortInv)
    have huw2 : u.2 < w.2 := chain'_append_adj A (hInvDec ▸ coordPtsInv_sndStrict c hx)
    have hd1 : (0 : ℚ) < w.1 - u.1 := sub_pos.mpr huw1
    have hd2 : (0 : ℚ) < w.2 - u.2 := sub_pos.mpr huw2
    have hI : interpPts v (coordPtsInv c) =
        u.2 + (w.2 - u.2) * (v - u.1) / (w.1 - u.1) := by
      rw [hInvDec]
      exact interpPts_segment A (hInvDec ▸ hsortInv) hu hw
    have hIlo : u.2 ≤ interpPts v (coordPtsInv c) := by
      rw [hI]
      have : 0 ≤ (w.2 - u.2) * (v - u.1) / (w.1 - u.1) :=
        div_nonneg (mul_nonneg (le_of_lt hd2) (by linarith)) (le_of_lt hd1)
      linarith
    have hIhi : interpPts v (coordPtsInv c) ≤ w.2 := by
      rw [hI]
      have hle : (w.2 - u.2) * (v - u.1) / (w.1 - u.1) ≤ w.2 - u.2 := by
        rw [div_le_iff hd1]
        exact mul_le_mul_of_nonneg_left (by linarith) (le_of_lt hd2)
      linarith
    have hswap : coordPts c = (coordPtsInv c).map Prod.swap := by
      show (castList c.tie_indices).zip c.tie_values =
        (c.tie_values.zip (castList c.tie_indices)).map Prod.swap
      rw [List.zip_swap]
    have hFwdDec : coordPts c =
        A.map Prod.swap ++ (u.2, u.1) :: (w.2, w.1) :: B.map Prod.swap := by
      rw [hswap, hInvDec]
      simp [Prod.swap]
    have hsortFwd : ptsSorted (coordPts c) := coordPts_sorted c hx
    have hfinal := interpPts_segment (q := interpPts v (coordPtsInv c))
      (A.map Prod.swap) (u := (u.2, u.1)) (v := (w.2, w.1)) (B := B.map Prod.swap)
      (hFwdDec ▸ hsortFwd) hIlo hIhi
    rw [← hFwdDec] at hfinal
    rw [hfinal, hI]
    field_simp
    ring

theorem coord_value_strictMono (c : LinearCoordinate)
    (hx : List.Chain' (· < ·) c.tie_indices) (hy : isStrictlyIncreasing c.tie_values)
    (hlen : c.tie_indices.length = c.tie_values.length)
    {x0 xl : ℤ} (hx0 : c.tie_indices.head? = some x0)
    (hxl : c.tie_indices.getLast? = some xl)
    {y0 yl : ℚ} (hy0 : c.tie_values.head? = some y0)
    (hyl : c.tie_values.getLast? = some yl)
    {q1 q2 : ℚ} (h12 : q1 < q2) (hq1 : (x0 : ℚ) ≤ q1) (hq2 : q2 ≤ (xl : ℚ)) :
    interpPts q1 (coordPts c) < interpPts q2 (coordPts c) := by
  have hhead : (coordPts c).head? = some (((x0 : ℤ) : ℚ), y0) :=
    zip_head? (castList_head? hx0) hy0
  have hlast : (coordPts c).getLast? = some (((xl : ℤ) : ℚ), yl) :=
    zip_getLast? (by simpa [castList] using hlen) (castList_getLast? hxl) hyl
  apply interpPts_strictMonoOn (coordPts c) (coordPts_sorted c hx)
    (coordPts_sndStrict c hy) h12
  · intro p hp
    rw [hhead] at hp
    simp at hp
    rw [← hp]
    exact hq1
  · intro p hp
    rw [hlast] at hp
    simp at hp
    rw [← hp]
    exact hq2
  · intro h0
    rw [h0] at hhead
    simp at hhead

/-! ## C4: value slice to index slice -/

/-- C4 counterexample: on `indices=[0,10]`, `values=[0,10]` with value range
`[0, 5)`, `get_index_slice` returns the index range `[0, 6)`; index `5` lies
inside it but `value_at(5) = 5`, which is *not* inside the half-open value
range `[0, 5)` — the code rounds the stop value's index down and adds one, so
a value exactly equal to the exclusive upper bound is included. -/
theorem C4_counterexample_stop_value_included :
    (⟨[0, 10], [0, 10]⟩ : LinearCoordinate).get_index_slice 0 5 = .ok (0, 6) ∧
    (⟨[0, 10], [0, 10]⟩ : LinearCoordinate).get_value 5 = .ok 5 ∧
    ¬ ((5 : ℚ) < 5) := by
  refine ⟨?_, ?_, by norm_num⟩
  · have ha : linearInterpolate 0 ([0, 10] : List ℚ) (castList [0, 10]) = .ok 0 := by
      norm_num [linearInterpolate, isStrictlyIncreasing, castList, ScaleOffset.floatize,
        ScaleOffset.direct, ScaleOffset.inverse, npInterp, interpPts, Except.map]
    have hb : linearInterpolate 5 ([0, 10] : List ℚ) (castList [0, 10]) = .ok 5 := by
      norm_num [linearInterpolate, isStrictlyIncreasing, castList, ScaleOffset.floatize,
        ScaleOffset.direct, ScaleOffset.inverse, npInterp, interpPts, Except.map]
    have h1 : (⟨[0, 10], [0, 10]⟩ : LinearCoordinate).get_index 0 "after" = .ok 0 := by
      rw [LinearCoordinate.get_index, ha]
      show Except.ok ⌈(0 : ℚ)⌉ = Except.ok 0
      norm_num
    have h2 : (⟨[0, 10], [0, 10]⟩ : LinearCoordinate).get_index 5 "before" = .ok 5 := by
      rw [LinearCoordinate.get_index, hb]
      show Except.ok ⌊(5 : ℚ)⌋ = Except.ok 5
      norm_num
    rw [LinearCoordinate.get_index_slice, h1, h2]
    rfl
  · norm_num [LinearCoordinate.get_value, linearInterpolate, isStrictlyIncreasing,
      castList, ScaleOffset.floatize, ScaleOffset.direct, ScaleOffset.inverse,
      npInterp, interpPts, Except.map]

/-- C4 (amended): for a coordinate with strictly increasing tie values and a
value range `[v0, v1)` within the coordinate's value span, `get_index_slice`
returns a half-open index range (start value's index rounded up, stop value's
index rounded down plus one) such that every index in the range has
`value_at` within the *closed* interval `[v0, v1]` (the bound `v1` itself is
attained when `v1` interpolates to an integer index), and no index of the
tie-index span outside the range has its value inside `[v0, v1)`. -/
theorem C4_index_slice_bounds (c : LinearCoordinate)
    (hx : List.Chain' (· < ·) c.tie_indices) (hy : isStrictlyIncreasing c.tie_values)
    (hlen : c.tie_indices.length = c.tie_values.length)
    (h2 : 2 ≤ c.tie_values.length)
    {x0 xl : ℤ} (hx0 : c.tie_indices.head? = some x0)
    (hxl : c.tie_indices.getLast? = some xl)
    {y0 yl : ℚ} (hy0 : c.tie_values.head? = some y0)
    (hyl : c.tie_values.getLast? = some yl)
    (v0 v1 : ℚ) (hv00 : y0 ≤ v0) (hv01 : v0 ≤ yl) (hv10 : y0 ≤ v1) (hv11 : v1 ≤ yl) :
    ∃ start stop, c.get_index_slice v0 v1 = .ok (start, stop) ∧
      (∀ i : ℤ, start ≤ i → i < stop →
        ∃ w, c.get_value ((i : ℤ) : ℚ) = .ok w ∧ v0 ≤ w ∧ w ≤ v1) ∧
      (∀ i : ℤ, x0 ≤ i → i ≤ xl → ∀ w, c.get_value ((i : ℤ) : ℚ) = .ok w →
        v0 ≤ w → w < v1 → start ≤ i ∧ i < stop) := by
  have hyne : c.tie_values ≠ [] := by
    intro h0
    rw [h0] at hy0
    simp at hy0
  have hne : c.tie_indices ≠ [] := by
    intro h0
    rw [h0] at hx0
    simp at hx0
  obtain ⟨⟨hI0lo, hI0hi⟩, hI0rt⟩ :=
    inverse_interp_spec c hx hy hlen hy0 hyl hv00 hv01 hx0 hxl h2
  obtain ⟨⟨hI1lo, hI1hi⟩, hI1rt⟩ :=
    inverse_interp_spec c hx hy hlen hy0 hyl hv10 hv11 hx0 hxl h2
  have hmono : ∀ {q1 q2 : ℚ}, q1 ≤ q2 →
      interpPts q1 (coordPts c) ≤ interpPts q2 (coordPts c) :=
    fun hq => interpPts_mono (coordPts c) (coordPts_sorted c hx)
      ((coordPts_sndStrict c hy).imp (fun a b h => le_of_lt h)) hq
  have hgis : c.get_index_slice v0 v1 =
      .ok (⌈interpPts v0 (coordPtsInv c)⌉, ⌊interpPts v1 (coordPtsInv c)⌋ + 1) := by
    rw [LinearCoordinate.get_index_slice, get_index_after c hy hyne hlen.symm,
      get_index_before c hy hyne hlen.symm]
    rfl
  refine ⟨_, _, hgis, ?_, ?_⟩
  · intro i hi1 hi2
    have hi2' : i ≤ ⌊interpPts v1 (coordPtsInv c)⌋ := by omega
    refine ⟨interpPts ((i : ℤ) : ℚ) (coordPts c),
      get_value_eq c hx hne hlen _, ?_, ?_⟩
    · have hle : interpPts v0 (coordPtsInv c) ≤ ((i : ℤ) : ℚ) :=
        le_trans (Int.le_ceil _) (by exact_mod_cast hi1)
      calc v0 = interpPts (interpPts v0 (coordPtsInv c)) (coordPts c) := hI0rt.symm
        _ ≤ interpPts ((i : ℤ) : ℚ) (coordPts c) := hmono hle
    · have hle : ((i : ℤ) : ℚ) ≤ interpPts v1 (coordPtsInv c) :=
        le_trans (by exact_mod_cast hi2') (Int.floor_le _)
      calc interpPts ((i : ℤ) : ℚ) (coordPts c)
          ≤ interpPts (interpPts v1 (coordPtsInv c)) (coordPts c) := hmono hle
        _ = v1 := hI1rt
  · intro i hilo hihi w hw hwv0 hwv1
    rw [get_value_eq c hx hne hlen] at hw
    have hweq : w = interpPts ((i : ℤ) : ℚ) (coordPts c) := by
      injection hw.symm
    subst hweq
    constructor
    · by_contra hcon
      push_neg at hcon
      have hqi : ((i : ℤ) : ℚ) < interpPts v0 (coordPtsInv c) := by
        exact_mod_cast Int.lt_ceil.mp hcon
      have hstrict := coord_value_strictMono c hx hy hlen hx0 hxl hy0 hyl hqi
        (by exact_mod_cast hilo) hI0hi
      rw [hI0rt] at hstrict
      exact absurd hwv0 (not_le.mpr hstrict)
    · by_contra hcon
      push_neg at hcon
      have hfl : ⌊interpPts v1 (coordPtsInv c)⌋ < i := by omega
      have hqi : interpPts v1 (coordPtsInv c) < ((i : ℤ) : ℚ) := by
        exact_mod_cast Int.floor_lt.mp hfl
      have hstrict := coord_value_strictMono c hx hy hlen hx0 hxl hy0 hyl hqi
        hI1lo (by exact_mod_cast hihi)
      rw [hI1rt] at hstrict
      exact absurd hwv1 (not_lt.mpr (le_of_lt hstrict))

/-- C4 witness: `indices=[0,10]`, `values=[0,10]`, value range `[1, 4)`. -/
theorem C4_index_slice_bounds_witness :
    ∃ start stop, (⟨[0, 10], [0, 10]⟩ : LinearCoordinate).get_index_slice 1 4 =
        .ok (start, stop) ∧
      (∀ i : ℤ, start ≤ i → i < stop →
        ∃ w, (⟨[0, 10], [0, 10]⟩ : LinearCoordinate).get_value ((i : ℤ) : ℚ) = .ok w ∧
          (1 : ℚ) ≤ w ∧ w ≤ 4) ∧
      (∀ i : ℤ, (0 : ℤ) ≤ i → i ≤ 10 →
        ∀ w, (⟨[0, 10], [0, 10]⟩ : LinearCoordinate).get_value ((i : ℤ) : ℚ) = .ok w →
        (1 : ℚ) ≤ w → w < 4 → start ≤ i ∧ i < stop) :=
  @C4_index_slice_bounds ⟨[0, 10], [0, 10]⟩ (by norm_num [List.chain'_cons])
    (by norm_num [isStrictlyIncreasing, List.chain'_cons]) (by simp) (by simp)
    0 10 (by simp) (by simp) 0 10 (by simp) (by simp) 1 4
    (by norm_num) (by norm_num) (by norm_num) (by norm_num)

/-! ## `np.argmax` and `rdpStep` characterization -/

theorem getD_mem_of_lt {α : Type} {l : List α} {j : ℕ} (h : j < l.length) (d : α) :
    l.getD j d ∈ l := by
  rw [List.getD_eq_getElem?_getD, List.getElem?_eq_getElem h]
  exact List.getElem_mem h

theorem chain'_lt_getD {x : List ℤ} (hx : List.Chain' (· < ·) x) :
    ∀ i j, i < j → j < x.length → x.getD i 0 < x.getD j 0 := by
  induction x with
  | nil => intro i j _ hj; simp at hj
  | cons a l ih =>
    intro i j hij hj
    cases i with
    | zero =>
      obtain ⟨j', rfl⟩ : ∃ j', j = j' + 1 := ⟨j - 1, by omega⟩
      have hj' : j' < l.length := by simpa using hj
      have hmem : l.getD j' 0 ∈ l := getD_mem_of_lt hj' 0
      have hp := (List.pairwise_cons.mp (List.chain'_iff_pairwise.mp hx)).1
      simpa using hp _ hmem
    | succ i' =>
      obtain ⟨j', rfl⟩ : ∃ j', j = j' + 1 := ⟨j - 1, by omega⟩
      have hj' : j' < l.length := by simpa using hj
      simpa using ih hx.tail i' j' (by omega) hj'

theorem argmaxFrom_spec :
    ∀ (l : List ℚ) (i bi : ℕ) (bv : ℚ),
      ∃ r w, argmaxFrom l i bi bv = r ∧
        ((r = bi ∧ w = bv) ∨ ∃ k, k < l.length ∧ r = i + k ∧ w = l.getD k 0) ∧
        bv ≤ w ∧ (∀ a ∈ l, a ≤ w) := by
  intro l
  induction l with
  | nil =>
    intro i bi bv
    exact ⟨bi, bv, rfl, Or.inl ⟨rfl, rfl⟩, le_rfl, by simp⟩
  | cons a l ih =>
    intro i bi bv
    by_cases h : bv < a
    · obtain ⟨r, w, heq, hcase, hge, hall⟩ := ih (i + 1) i a
      refine ⟨r, w, by simp [argmaxFrom, h, heq], Or.inr ?_, le_trans (le_of_lt h) hge, ?_⟩
      · rcases hcase with ⟨h1, h2⟩ | ⟨k, hk, h1, h2⟩
        · exact ⟨0, by simp, by omega, by simp [h2]⟩
        · exact ⟨k + 1, by simpa using hk, by omega, by simpa using h2⟩
      · intro b hb
        rcases List.mem_cons.mp hb with rfl | hb'
        · exact hge
        · exact hall b hb'
    · obtain ⟨r, w, heq, hcase, hge, hall⟩ := ih (i + 1) bi bv
      refine ⟨r, w, by simp [argmaxFrom, h, heq], ?_, hge, ?_⟩
      · rcases hcase with ⟨h1, h2⟩ | ⟨k, hk, h1, h2⟩
        · exact Or.inl ⟨h1, h2⟩
        · exact Or.inr ⟨k + 1, by simpa using hk, by omega, by simpa using h2⟩
      · intro b hb
        rcases List.mem_cons.mp hb with rfl | hb'
        · exact le_trans (not_lt.mp h) hge
        · exact hall b hb'

theorem npArgmax_spec (l : List ℚ) (hne : l ≠ []) :
    npArgmax l < l.length ∧ ∀ j, j < l.length → l.getD j 0 ≤ l.getD (npArgmax l) 0 := by
  cases l with
  | nil => exact absurd rfl hne
  | cons a rest =>
    obtain ⟨r, w, heq, hcase, hge, hall⟩ := argmaxFrom_spec rest 1 0 a
    have hr : npArgmax (a :: rest) = r := by simp [npArgmax, heq]
    have hwr : (a :: rest).getD r 0 = w := by
      rcases hcase with ⟨h1, h2⟩ | ⟨k, hk, h1, h2⟩
      · rw [h1, h2]
        rfl
      · rw [h1, h2, show 1 + k = k + 1 from by omega]
        simp
    constructor
    · rw [hr]
      rcases hcase with ⟨h1, -⟩ | ⟨k, hk, h1, -⟩
      · simp [h1]
      · simp
        omega
    · intro j hj
      rw [hr, hwr]
      cases j with
      | zero => exact hge
      | succ j' =>
        have hj' : j' < rest.length := by simpa using hj
        exact hall _ (getD_mem_of_lt hj' 0)

theorem except_bind_ok {ε α β : Type} (a : α) (f : α → Except ε β) :
    (Bind.bind (Except.ok a) f : Except ε β) = f a := rfl

theorem rdpStep_eq (x : List ℤ) (y : List ℚ) (eps : ℚ) (s t : ℕ)
    (hchord : x.getD s 0 < x.getD (t - 1) 0) :
    rdpStep x y eps s t =
      (if ((List.range (t - s)).map (fun k => chordDev x y s (t - 1) (s + k))) = []
       then .error .shapeMismatch
       else if eps <
          ((List.range (t - s)).map (fun k => chordDev x y s (t - 1) (s + k))).getD
            (npArgmax ((List.range (t - s)).map (fun k => chordDev x y s (t - 1) (s + k)))) 0
       then .ok (some (s +
          npArgmax ((List.range (t - s)).map (fun k => chordDev x y s (t - 1) (s + k)))))
       else .ok none) := by
  have hinc : isStrictlyIncreasing
      [((x.getD s 0 : ℤ) : ℚ), ((x.getD (t - 1) 0 : ℤ) : ℚ)] :=
    List.chain'_pair.mpr (by exact_mod_cast hchord)
  rw [rdpStep, linearInterpolateVec_eq, if_pos hinc,
    npInterpVec_eq_ok (List.map (fun k => ((x.getD (s + k) 0 : ℤ) : ℚ))
        (List.range (t - s)))
      [((x.getD s 0 : ℤ) : ℚ), ((x.getD (t - 1) 0 : ℤ) : ℚ)]
      [y.getD s 0, y.getD (t - 1) 0] (by simp) (by simp)]
  rw [except_bind_ok]
  simp only [List.zip_map', List.map_map]
  rfl

theorem getD_map_range (f : ℕ → ℚ) {n k : ℕ} (h : k < n) :
    ((List.range n).map f).getD k 0 = f k := by
  rw [List.getD_eq_getElem?_getD, List.getElem?_eq_getElem (by simpa using h)]
  simp

theorem rdpStep_spec (x : List ℤ) (y : List ℚ) (eps : ℚ)
    (hx : List.Chain' (· < ·) x) (heps : 0 ≤ eps) (s t : ℕ)
    (hst : s + 2 ≤ t) (htn : t ≤ x.length) :
    (rdpStep x y eps s t = .ok none ∧
      ∀ p, s ≤ p → p < t → chordDev x y s (t - 1) p ≤ eps) ∨
    (∃ m, rdpStep x y eps s t = .ok (some m) ∧ s + 1 ≤ m ∧ m + 2 ≤ t) := by
  have hchord : x.getD s 0 < x.getD (t - 1) 0 :=
    chain'_lt_getD hx s (t - 1) (by omega) (by omega)
  have hsortPair : ptsSorted (chordPts x y s (t - 1)) :=
    List.chain'_pair.mpr
      (show ((x.getD s 0 : ℤ) : ℚ) < ((x.getD (t - 1) 0 : ℤ) : ℚ) by
        exact_mod_cast hchord)
  have heq := rdpStep_eq x y eps s t hchord
  set d := (List.range (t - s)).map (fun k => chordDev x y s (t - 1) (s + k)) with hd
  have hdne : d ≠ [] := by
    rw [hd]
    simp only [ne_eq, List.map_eq_nil_iff, List.range_eq_nil]
    omega
  have hdlen : d.length = t - s := by simp [hd]
  have hgetD : ∀ k, k < t - s → d.getD k 0 = chordDev x y s (t - 1) (s + k) :=
    fun k hk => getD_map_range _ hk
  have hdev_s : chordDev x y s (t - 1) s = 0 := by
    have h1 : interpPts ((x.getD s 0 : ℤ) : ℚ) (chordPts x y s (t - 1)) = y.getD s 0 :=
      interpPts_head_le hsortPair le_rfl
    rw [chordDev, h1]
    simp
  have hdev_t : chordDev x y s (t - 1) (t - 1) = 0 := by
    have h1 : interpPts ((x.getD (t - 1) 0 : ℤ) : ℚ) (chordPts x y s (t - 1)) =
        y.getD (t - 1) 0 :=
      interpPts_last_le hsortPair rfl le_rfl
    rw [chordDev, h1]
    simp
  obtain ⟨hm0lt, hm0max⟩ := npArgmax_spec d hdne
  by_cases hcase : eps < d.getD (npArgmax d) 0
  · right
    refine ⟨s + npArgmax d, ?_, ?_, ?_⟩
    · rw [heq, if_neg hdne, if_pos hcase]
    · rcases Nat.eq_zero_or_pos (npArgmax d) with h0 | h0
      · exfalso
        rw [h0, hgetD 0 (by omega), show s + 0 = s from rfl, hdev_s] at hcase
        exact absurd hcase (not_lt.mpr heps)
      · omega
    · rcases Nat.lt_or_ge (npArgmax d) (t - s - 1) with h1 | h1
      · omega
      · exfalso
        have hm0 : npArgmax d = t - s - 1 := by omega
        rw [hm0, hgetD _ (by omega), show s + (t - s - 1) = t - 1 from by omega,
          hdev_t] at hcase
        exact absurd hcase (not_lt.mpr heps)
  · left
    constructor
    · rw [heq, if_neg hdne, if_neg hcase]
    · intro p hp1 hp2
      have hk : p - s < t - s := by omega
      have hle := hm0max (p - s) (by omega)
      rw [hgetD _ hk, show s + (p - s) = p from by omega] at hle
      exact le_trans hle (not_lt.mp hcase)

/-! ## Stability of the discard set and the loop characterization -/

theorem discFuel_stable (x : List ℤ) (y : List ℚ) (eps : ℚ)
    (hx : List.Chain' (· < ·) x) (heps : 0 ≤ eps) :
    ∀ K s t p f, t - s ≤ K → t - s ≤ f → s + 2 ≤ t → t ≤ x.length →
      discFuel x y eps f s t p = discSet x y eps s t p := by
  intro K
  induction K with
  | zero => intro s t p f h1 _ h3 _; omega
  | succ K ih =>
    intro s t p f h1 h2 h3 h4
    obtain ⟨f', rfl⟩ : ∃ f', f = f' + 1 := ⟨f - 1, by omega⟩
    obtain ⟨g', hg⟩ : ∃ g', t - s = g' + 1 := ⟨t - s - 1, by omega⟩
    rw [discSet, hg]
    show discFuel x y eps (f' + 1) s t p = discFuel x y eps (g' + 1) s t p
    rcases rdpStep_spec x y eps hx heps s t h3 h4 with ⟨hnone, -⟩ | ⟨m, hsome, hm1, hm2⟩
    · simp only [discFuel, hnone]
    · simp only [discFuel, hsome]
      rw [ih s (m + 1) p f' (by omega) (by omega) (by omega) (by omega),
        ih m t p f' (by omega) (by omega) (by omega) h4,
        ih s (m + 1) p g' (by omega) (by omega) (by omega) (by omega),
        ih m t p g' (by omega) (by omega) (by omega) h4]

theorem simplifyLoop_spec (x : List ℤ) (y : List ℚ) (eps : ℚ)
    (hx : List.Chain' (· < ·) x) (heps : 0 ≤ eps) :
    ∀ fuel stack mask,
      (∀ r ∈ stack, r.1 + 2 ≤ r.2 ∧ r.2 ≤ x.length) →
      stackMeasure stack < fuel →
      simplifyLoop x y eps fuel stack mask =
        some (.ok (fun p => mask p &&
          ! stack.any (fun r => discSet x y eps r.1 r.2 p))) := by
  intro fuel
  induction fuel with
  | zero => intro stack mask _ hm; omega
  | succ fuel ih =>
    intro stack mask hv hm
    cases stack with
    | nil =>
      show some (Except.ok mask) = _
      congr 2
      funext p
      simp
    | cons r rest =>
      obtain ⟨s, t⟩ := r
      obtain ⟨hst, htn⟩ := hv (s, t) (by simp)
      have hone : 1 ≤ 3 ^ (t - s) := Nat.one_le_pow _ _ (by norm_num)
      have hmeas : stackMeasure ((s, t) :: rest) = 3 ^ (t - s) + stackMeasure rest := by
        simp [stackMeasure]
      have hvrest : ∀ r ∈ rest, r.1 + 2 ≤ r.2 ∧ r.2 ≤ x.length :=
        fun r hr => hv r (List.mem_cons_of_mem _ hr)
      rcases rdpStep_spec x y eps hx heps s t hst htn with ⟨hnone, -⟩ | ⟨m, hsome, hm1, hm2⟩
      · simp only [simplifyLoop, hnone]
        rw [ih rest _ hvrest (by omega)]
        congr 2
        funext p
        have hdisc : discSet x y eps s t p = decide (s + 1 ≤ p ∧ p + 1 < t) := by
          obtain ⟨g', hg⟩ : ∃ g', t - s = g' + 1 := ⟨t - s - 1, by omega⟩
          rw [discSet, hg]
          simp only [discFuel, hnone]
        simp only [List.any_cons, hdisc]
        by_cases hc : s + 1 ≤ p ∧ p + 1 < t
        · simp [hc]
        · simp [hc]
      · simp only [simplifyLoop, hsome]
        have hvstack' : ∀ r ∈ (m, t) :: (s, m + 1) :: rest,
            r.1 + 2 ≤ r.2 ∧ r.2 ≤ x.length := by
          intro r hr
          rcases List.mem_cons.mp hr with rfl | hr'
          · exact ⟨by omega, htn⟩
          · rcases List.mem_cons.mp hr' with rfl | hr''
            · exact ⟨by omega, by omega⟩
            · exact hv r (List.mem_cons_of_mem _ hr'')
        have hmeas' : stackMeasure ((m, t) :: (s, m + 1) :: rest) < fuel := by
          have e3 : 3 ^ (t - s) = 3 ^ (t - s - 1) * 3 := by
            conv_lhs => rw [show t - s = (t - s - 1) + 1 from by omega]
            rw [pow_succ]
          have p1 : 3 ^ (t - m) ≤ 3 ^ (t - s - 1) :=
            Nat.pow_le_pow_right (by norm_num) (by omega)
          have p2 : 3 ^ (m + 1 - s) ≤ 3 ^ (t - s - 1) :=
            Nat.pow_le_pow_right (by norm_num) (by omega)
          have hp : 0 < 3 ^ (t - s - 1) := Nat.pos_pow_of_pos _ (by norm_num)
          have hms : stackMeasure ((m, t) :: (s, m + 1) :: rest) =
              3 ^ (t - m) + (3 ^ (m + 1 - s) + stackMeasure rest) := by
            simp [stackMeasure]
          omega
        rw [ih _ _ hvstack' hmeas']
        congr 2
        funext p
        have hdisc : discSet x y eps s t p =
            (discSet x y eps s (m + 1) p || discSet x y eps m t p) := by
          obtain ⟨g', hg⟩ : ∃ g', t - s = g' + 1 := ⟨t - s - 1, by omega⟩
          rw [show discSet x y eps s t p = discFuel x y eps (t - s) s t p from rfl, hg]
          simp only [discFuel, hsome]
          rw [discFuel_stable x y eps hx heps g' s (m + 1) p g' (by omega) (by omega)
              (by omega) (by omega),
            discFuel_stable x y eps hx heps g' m t p g' (by omega) (by omega)
              (by omega) htn]
        simp only [List.any_cons, hdisc]
        cases discSet x y eps s (m + 1) p <;> cases discSet x y eps m t p <;> simp

/-! ## C6: termination of `_simplify` -/

theorem rdpStep_neg_eps_example :
    rdpStep [0, 1, 2] [0, 0, 0] (-1) 0 3 = .ok (some 0) := by
  rw [rdpStep_eq [0, 1, 2] [0, 0, 0] (-1) 0 3 (by decide)]
  have hr : List.range (3 - 0) = [0, 1, 2] := by decide
  have h0 : ∀ k, chordDev [0, 1, 2] [0, 0, 0] 0 (3 - 1) (0 + k) = 0 := by
    intro k
    have hq : interpPts ((([0, 1, 2] : List ℤ).getD (0 + k) 0 : ℤ) : ℚ)
        (chordPts [0, 1, 2] [0, 0, 0] 0 (3 - 1)) = 0 := by
      show interpPts _ [((0 : ℚ), (0 : ℚ)), ((2 : ℚ), (0 : ℚ))] = 0
      rw [interpPts]
      norm_num [interpPts]
    rw [chordDev, hq]
    have hy : ([0, 0, 0] : List ℚ).getD (0 + k) 0 = 0 := by
      rcases k with - | - | - | k <;> rfl
    rw [hy]
    simp
  rw [hr]
  simp only [List.map_cons, List.map_nil, h0]
  rw [if_neg (by simp)]
  norm_num [npArgmax, argmaxFrom]

theorem simplifyLoop_neg_eps_diverges :
    ∀ fuel rest mask,
      simplifyLoop [0, 1, 2] [0, 0, 0] (-1) fuel ((0, 3) :: rest) mask = none := by
  intro fuel
  induction fuel with
  | zero => intro rest mask; rfl
  | succ fuel ih =>
    intro rest mask
    simp only [simplifyLoop, rdpStep_neg_eps_example]
    exact ih ((0, 1) :: rest) mask

/-- C6 counterexample: with `epsilon = -1` (the claim quantifies over *every*
epsilon) on the exactly-collinear tie points `indices=[0,1,2]`,
`values=[0,0,0]`, the maximal deviation `0` exceeds epsilon but the first
maximum sits at the range's left endpoint, so the split re-pushes the full
range `(0, 3)` and the stack never shrinks: the loop runs forever. -/
theorem C6_counterexample_negative_epsilon :
    ¬ simplifyTerminates [0, 1, 2] [0, 0, 0] (-1) := by
  rintro ⟨fuel, r, h⟩
  rw [show ([0, 1, 2] : List ℤ).length = 3 from rfl,
    simplifyLoop_neg_eps_diverges fuel [] (fun _ => true)] at h
  simp at h

/-- C6 (amended): for every tie-point set with at least 2 points, strictly
increasing tie indices, and every `epsilon ≥ 0`, the `_simplify` work-stack
loop terminates (each split pushes strictly smaller ranges), returning a
reduced tie-point set. -/
theorem C6_simplify_terminates (x : List ℤ) (y : List ℚ) (eps : ℚ)
    (hx : List.Chain' (· < ·) x) (h2 : 2 ≤ x.length) (heps : 0 ≤ eps) :
    simplifyTerminates x y eps ∧
    ∃ a b, simplifyArrays x y eps = some (.ok (a, b)) := by
  have hspec := simplifyLoop_spec x y eps hx heps (simplifyFuel x.length)
    [(0, x.length)] (fun _ => true)
    (by
      intro r hr
      simp at hr
      rw [hr]
      exact ⟨by simpa using h2, le_rfl⟩)
    (by simp [stackMeasure, simplifyFuel])
  constructor
  · exact ⟨_, _, hspec⟩
  · rw [simplifyArrays, hspec]
    exact ⟨_, _, rfl⟩

/-- C6 witness: the concrete coordinate `indices=[0,1,2]`, `values=[0,5,0]`
with `epsilon = 1`. -/
theorem C6_simplify_terminates_witness :
    simplifyTerminates [0, 1, 2] [0, 5, 0] 1 ∧
    ∃ a b, simplifyArrays [0, 1, 2] [0, 5, 0] 1 = some (.ok (a, b)) :=
  C6_simplify_terminates [0, 1, 2] [0, 5, 0] 1 (by norm_num [List.chain'_cons])
    (by simp) (by norm_num)

/-! ## Structure of the discard set -/

theorem discSet_subset (x : List ℤ) (y : List ℚ) (eps : ℚ)
    (hx : List.Chain' (· < ·) x) (heps : 0 ≤ eps) :
    ∀ K s t p, t - s ≤ K → s + 2 ≤ t → t ≤ x.length →
      discSet x y eps s t p = true → s + 1 ≤ p ∧ p + 1 < t := by
  intro K
  induction K with
  | zero => intro s t p h1 h2 _ _; omega
  | succ K ih =>
    intro s t p h1 h2 h3 hdisc
    obtain ⟨g', hg⟩ : ∃ g', t - s = g' + 1 := ⟨t - s - 1, by omega⟩
    rw [discSet, hg] at hdisc
    rcases rdpStep_spec x y eps hx heps s t h2 h3 with ⟨hnone, -⟩ | ⟨m, hsome, hm1, hm2⟩
    · simp only [discFuel, hnone] at hdisc
      simpa using hdisc
    · simp only [discFuel, hsome] at hdisc
      rw [discFuel_stable x y eps hx heps g' s (m + 1) p g' (by omega) (by omega)
          (by omega) (by omega),
        discFuel_stable x y eps hx heps g' m t p g' (by omega) (by omega)
          (by omega) h3] at hdisc
      rcases Bool.or_eq_true_iff.mp hdisc with h | h
      · have := ih s (m + 1) p (by omega) (by omega) (by omega) h
        omega
      · have := ih m t p (by omega) (by omega) h3 h
        omega

theorem discSet_chord_bound (x : List ℤ) (y : List ℚ) (eps : ℚ)
    (hx : List.Chain' (· < ·) x) (heps : 0 ≤ eps) :
    ∀ K s t, t - s ≤ K → s + 2 ≤ t → t ≤ x.length →
      ∀ a b, s ≤ a → a < b → b ≤ t - 1 →
      discSet x y eps s t a = false → discSet x y eps s t b = false →
      (∀ c, a < c → c < b → discSet x y eps s t c = true) →
      ∀ p, a ≤ p → p ≤ b → chordDev x y a b p ≤ eps := by
  intro K
  induction K with
  | zero => intro s t h1 h2 _ _; omega
  | succ K ih =>
    intro s t h1 h2 h3 a b hsa hab hbt hda hdb hbetween p hp1 hp2
    obtain ⟨g', hg⟩ : ∃ g', t - s = g' + 1 := ⟨t - s - 1, by omega⟩
    rcases rdpStep_spec x y eps hx heps s t h2 h3 with ⟨hnone, hdev⟩ | ⟨m, hsome, hm1, hm2⟩
    · -- leaf: non-discarded positions in [s, t-1] are exactly s and t-1
      have hleaf : ∀ c, discSet x y eps s t c = decide (s + 1 ≤ c ∧ c + 1 < t) := by
        intro c
        rw [discSet, hg]
        simp only [discFuel, hnone]
      have ha : a = s := by
        have := hda
        rw [hleaf a] at this
        simp at this
        omega
      have hb : b = t - 1 := by
        have := hdb
        rw [hleaf b] at this
        simp at this
        omega
      rw [ha, hb]
      exact hdev p (by omega) (by omega)
    · -- split at m: the pair (a, b) lives in one of the children
      have hdiscEq : ∀ c, discSet x y eps s t c =
          (discSet x y eps s (m + 1) c || discSet x y eps m t c) := by
        intro c
        rw [discSet, hg]
        simp only [discFuel, hsome]
        rw [discFuel_stable x y eps hx heps g' s (m + 1) c g' (by omega) (by omega)
            (by omega) (by omega),
          discFuel_stable x y eps hx heps g' m t c g' (by omega) (by omega)
            (by omega) h3]
      have hdm : discSet x y eps s t m = false := by
        rw [hdiscEq]
        have h1' : discSet x y eps s (m + 1) m = false := by
          cases hc : discSet x y eps s (m + 1) m
          · rfl
          · have := discSet_subset x y eps hx heps (m + 1 - s) s (m + 1) m le_rfl
              (by omega) (by omega) hc
            omega
        have h2' : discSet x y eps m t m = false := by
          cases hc : discSet x y eps m t m
          · rfl
          · have := discSet_subset x y eps hx heps (t - m) m t m le_rfl
              (by omega) h3 hc
            omega
        rw [h1', h2']
        rfl
      have hchild1 : ∀ c, discSet x y eps s t c = true → c ≤ m →
          discSet x y eps s (m + 1) c = true := by
        intro c hc hcm
        rw [hdiscEq] at hc
        rcases Bool.or_eq_true_iff.mp hc with h | h
        · exact h
        · have := discSet_subset x y eps hx heps (t - m) m t c le_rfl (by omega) h3 h
          omega
      have hchild2 : ∀ c, discSet x y eps s t c = true → m ≤ c →
          discSet x y eps m t c = true := by
        intro c hc hcm
        rw [hdiscEq] at hc
        rcases Bool.or_eq_true_iff.mp hc with h | h
        · have := discSet_subset x y eps hx heps (m + 1 - s) s (m + 1) c le_rfl
            (by omega) (by omega) h
          omega
        · exact h
      rcases Nat.lt_or_ge a m with ham | hma
      swap
      · -- inside child (m, t)
        have hda2 : discSet x y eps m t a = false := by
          cases hc : discSet x y eps m t a
          · rfl
          · rw [hdiscEq a, hc] at hda
            simp at hda
        have hdb2 : discSet x y eps m t b = false := by
          cases hc : discSet x y eps m t b
          · rfl
          · rw [hdiscEq b, hc] at hdb
            simp at hdb
        have hbetween2 : ∀ c, a < c → c < b → discSet x y eps m t c = true :=
          fun c hc1 hc2 => hchild2 c (hbetween c hc1 hc2) (by omega)
        exact ih m t (by omega) (by omega) h3 a b hma hab (by omega)
          hda2 hdb2 hbetween2 p hp1 hp2
      rcases Nat.lt_or_ge m b with hmb | hbm
      · -- a < m < b: impossible, m is kept
        exfalso
        have := hbetween m ham hmb
        rw [hdm] at this
        simp at this
      · -- inside child (s, m+1)
        have hda1 : discSet x y eps s (m + 1) a = false := by
          cases hc : discSet x y eps s (m + 1) a
          · rfl
          · rw [hdiscEq a, hc] at hda
            simp at hda
        have hdb1 : discSet x y eps s (m + 1) b = false := by
          cases hc : discSet x y eps s (m + 1) b
          · rfl
          · rw [hdiscEq b, hc] at hdb
            simp at hdb
        have hbetween1 : ∀ c, a < c → c < b → discSet x y eps s (m + 1) c = true :=
          fun c hc1 hc2 => hchild1 c (hbetween c hc1 hc2) (by omega)
        have hb1 : b ≤ m + 1 - 1 := by omega
        exact ih s (m + 1) (by omega) (by omega) (by omega) a b hsa hab hb1
          hda1 hdb1 hbetween1 p hp1 hp2

/-! ## Boolean-mask selection lemmas -/

theorem maskFilterAux_sublist {α : Type} (mask : ℕ → Bool) :
    ∀ (l : List α) (i : ℕ), List.Sublist (maskFilterAux mask i l) l := by
  intro l
  induction l with
  | nil => intro i; exact List.Sublist.refl _
  | cons a l ih =>
    intro i
    rw [maskFilterAux]
    by_cases h : mask i
    · rw [if_pos h]
      exact (ih (i + 1)).cons₂ a
    · rw [if_neg h]
      exact (ih (i + 1)).cons a

theorem maskFilterAux_length_eq {α β : Type} (mask : ℕ → Bool) :
    ∀ (l1 : List α) (l2 : List β) (i : ℕ), l1.length = l2.length →
      (maskFilterAux mask i l1).length = (maskFilterAux mask i l2).length := by
  intro l1
  induction l1 with
  | nil =>
    intro l2 i h
    cases l2 with
    | nil => rfl
    | cons b l2' => simp at h
  | cons a l ih =>
    intro l2 i h
    cases l2 with
    | nil => simp at h
    | cons b l2' =>
      have h' : l.length = l2'.length := by simpa using h
      rw [maskFilterAux, maskFilterAux]
      by_cases hm : mask i
      · rw [if_pos hm, if_pos hm]
        simp [ih l2' (i + 1) h']
      · rw [if_neg hm, if_neg hm]
        exact ih l2' (i + 1) h'

theorem maskFilterAux_map {α β : Type} (mask : ℕ → Bool) (f : α → β) :
    ∀ (l : List α) (i : ℕ),
      maskFilterAux mask i (l.map f) = (maskFilterAux mask i l).map f := by
  intro l
  induction l with
  | nil => intro i; rfl
  | cons a l ih =>
    intro i
    rw [List.map_cons, maskFilterAux, maskFilterAux]
    by_cases hm : mask i
    · rw [if_pos hm, if_pos hm, List.map_cons, ih]
    · rw [if_neg hm, if_neg hm, ih]

theorem maskFilterAux_zip {α β : Type} (mask : ℕ → Bool) :
    ∀ (l1 : List α) (l2 : List β) (i : ℕ), l1.length = l2.length →
      maskFilterAux mask i (l1.zip l2) =
        (maskFilterAux mask i l1).zip (maskFilterAux mask i l2) := by
  intro l1
  induction l1 with
  | nil =>
    intro l2 i h
    cases l2 with
    | nil => rfl
    | cons b l2' => simp at h
  | cons a l ih =>
    intro l2 i h
    cases l2 with
    | nil => simp at h
    | cons b l2' =>
      have h' : l.length = l2'.length := by simpa using h
      rw [List.zip_cons_cons, maskFilterAux, maskFilterAux, maskFilterAux]
      by_cases hm : mask i
      · rw [if_pos hm, if_pos hm, if_pos hm, List.zip_cons_cons, ih _ _ h']
      · rw [if_neg hm, if_neg hm, if_neg hm, ih _ _ h']

theorem maskFilter_head? {α : Type} (mask : ℕ → Bool) (l : List α)
    (h : mask 0 = true) : (maskFilter mask l).head? = l.head? := by
  cases l with
  | nil => rfl
  | cons a l => simp [maskFilter, maskFilterAux, h]

theorem maskFilterAux_getLast? {α : Type} (mask : ℕ → Bool) :
    ∀ (l : List α) (i : ℕ), l ≠ [] → mask (i + l.length - 1) = true →
      (maskFilterAux mask i l).getLast? = l.getLast? := by
  intro l
  induction l with
  | nil => intro i h _; exact absurd rfl h
  | cons a l ih =>
    intro i _ hm
    cases l with
    | nil =>
      have h0 : mask i = true := by simpa using hm
      simp [maskFilterAux, h0]
    | cons b l' =>
      have hm' : mask ((i + 1) + (b :: l').length - 1) = true := by
        rw [show (i + 1) + (b :: l').length - 1 = i + (a :: b :: l').length - 1 by
          simp; omega]
        exact hm
      have hrec := ih (i + 1) (by simp) hm'
      have hne' : maskFilterAux mask (i + 1) (b :: l') ≠ [] := by
        intro h0
        rw [h0] at hrec
        have : (b :: l').getLast? = none := hrec.symm
        rw [List.getLast?_eq_none_iff] at this
        simp at this
      obtain ⟨c, L', hcl⟩ : ∃ c L', maskFilterAux mask (i + 1) (b :: l') = c :: L' := by
        cases hcc : maskFilterAux mask (i + 1) (b :: l') with
        | nil => exact absurd hcc hne'
        | cons c L' => exact ⟨c, L', rfl⟩
      rw [maskFilterAux]
      by_cases hma : mask i
      · rw [if_pos hma, hcl, List.getLast?_cons_cons, ← hcl, hrec,
          List.getLast?_cons_cons]
      · rw [if_neg hma, hrec, List.getLast?_cons_cons]

theorem maskFilterAux_first {α : Type} (mask : ℕ → Bool) (d : α) :
    ∀ (l : List α) (i j : ℕ), j < l.length → mask (i + j) = true →
      (∀ c, c < j → mask (i + c) = false) →
      ∃ B, maskFilterAux mask i l = l.getD j d :: B := by
  intro l
  induction l with
  | nil => intro i j hj; simp at hj
  | cons a l ih =>
    intro i j hj hmj hbefore
    cases j with
    | zero =>
      have h0 : mask i = true := by simpa using hmj
      refine ⟨maskFilterAux mask (i + 1) l, ?_⟩
      simp [maskFilterAux, h0]
    | succ j' =>
      have h0 : mask i = false := by simpa using hbefore 0 (by omega)
      have hj' : j' < l.length := by simpa using hj
      have hmj' : mask ((i + 1) + j') = true := by
        rw [show (i + 1) + j' = i + (j' + 1) from by omega]
        exact hmj
      have hb' : ∀ c, c < j' → mask ((i + 1) + c) = false := by
        intro c hc
        rw [show (i + 1) + c = i + (c + 1) from by omega]
        exact hbefore (c + 1) (by omega)
      obtain ⟨B, hB⟩ := ih (i + 1) j' hj' hmj' hb'
      refine ⟨B, ?_⟩
      rw [maskFilterAux, if_neg (by simp [h0]), hB]
      rfl

theorem maskFilterAux_decomp {α : Type} (mask : ℕ → Bool) (d : α) :
    ∀ (l : List α) (i a b : ℕ), a < b → b < l.length →
      mask (i + a) = true → mask (i + b) = true →
      (∀ c, a < c → c < b → mask (i + c) = false) →
      ∃ A B, maskFilterAux mask i l = A ++ l.getD a d :: l.getD b d :: B := by
  intro l
  induction l with
  | nil => intro i a b hab hb; simp at hb
  | cons hd tl ih =>
    intro i a b hab hb hma hmb hbetween
    cases a with
    | zero =>
      have h0 : mask i = true := by simpa using hma
      obtain ⟨b', rfl⟩ : ∃ b', b = b' + 1 := ⟨b - 1, by omega⟩
      have hmb' : mask ((i + 1) + b') = true := by
        rw [show (i + 1) + b' = i + (b' + 1) from by omega]
        exact hmb
      have hbefore : ∀ c, c < b' → mask ((i + 1) + c) = false := by
        intro c hc
        rw [show (i + 1) + c = i + (c + 1) from by omega]
        exact hbetween (c + 1) (by omega) (by omega)
      obtain ⟨B, hB⟩ := maskFilterAux_first mask d tl (i + 1) b'
        (by simpa using hb) hmb' hbefore
      refine ⟨[], B, ?_⟩
      rw [maskFilterAux, if_pos h0, hB]
      rfl
    | succ a' =>
      obtain ⟨b', rfl⟩ : ∃ b', b = b' + 1 := ⟨b - 1, by omega⟩
      have hma' : mask ((i + 1) + a') = true := by
        rw [show (i + 1) + a' = i + (a' + 1) from by omega]
        exact hma
      have hmb' : mask ((i + 1) + b') = true := by
        rw [show (i + 1) + b' = i + (b' + 1) from by omega]
        exact hmb
      have hbetween' : ∀ c, a' < c → c < b' → mask ((i + 1) + c) = false := by
        intro c h1 h2
        rw [show (i + 1) + c = i + (c + 1) from by omega]
        exact hbetween (c + 1) (by omega) (by omega)
      obtain ⟨A, B, hAB⟩ := ih (i + 1) a' b' (by omega) (by simpa using hb)
        hma' hmb' hbetween'
      by_cases hmi : mask i
      · refine ⟨hd :: A, B, ?_⟩
        rw [maskFilterAux, if_pos hmi, hAB]
        rfl
      · refine ⟨A, B, ?_⟩
        rw [maskFilterAux, if_neg hmi, hAB]
        rfl

/-! ## The filtered-interpolation comparison -/

theorem ptsSorted_getD_lt {P : List (ℚ × ℚ)} (h : ptsSorted P) :
    ∀ i j, i < j → j < P.length →
      (P.getD i ((0 : ℚ), (0 : ℚ))).1 < (P.getD j ((0 : ℚ), (0 : ℚ))).1 := by
  induction P with
  | nil => intro i j _ hj; simp at hj
  | cons a l ih =>
    intro i j hij hj
    cases i with
    | zero =>
      obtain ⟨j', rfl⟩ : ∃ j', j = j' + 1 := ⟨j - 1, by omega⟩
      have hj' : j' < l.length := by simpa using hj
      have hmem : l.getD j' ((0 : ℚ), (0 : ℚ)) ∈ l := getD_mem_of_lt hj' _
      have hp := (List.pairwise_cons.mp (ptsSorted_pairwise h)).1
      simpa using hp _ hmem
    | succ i' =>
      obtain ⟨j', rfl⟩ : ∃ j', j = j' + 1 := ⟨j - 1, by omega⟩
      have hj' : j' < l.length := by simpa using hj
      simpa using ih h.tail i' j' (by omega) hj'

theorem list_decomp_getD {α : Type} (d : α) :
    ∀ (l : List α) (p : ℕ), p + 1 < l.length →
      ∃ A B, l = A ++ l.getD p d :: l.getD (p + 1) d :: B := by
  intro l
  induction l with
  | nil => intro p hp; simp at hp
  | cons hd tl ih =>
    intro p hp
    cases p with
    | zero =>
      cases tl with
      | nil => simp at hp
      | cons t0 tl' => exact ⟨[], tl', rfl⟩
    | succ p' =>
      obtain ⟨A, B, hAB⟩ := ih p' (by simpa using hp)
      refine ⟨hd :: A, B, ?_⟩
      show hd :: tl = hd :: (A ++ tl.getD p' d :: tl.getD (p' + 1) d :: B)
      rw [← hAB]

theorem maskFilter_interp_bound (P : List (ℚ × ℚ)) (M : ℕ → Bool) (eps : ℚ)
    (heps : 0 ≤ eps) (hsort : ptsSorted P) (hne : P ≠ [])
    (h0 : M 0 = true) (hl : M (P.length - 1) = true)
    (hbound : ∀ a b, a < b → b < P.length → M a = true → M b = true →
      (∀ c, a < c → c < b → M c = false) →
      ∀ p, a ≤ p → p ≤ b →
        |(P.getD p ((0 : ℚ), (0 : ℚ))).2 -
          interpPts (P.getD p ((0 : ℚ), (0 : ℚ))).1
            [P.getD a ((0 : ℚ), (0 : ℚ)), P.getD b ((0 : ℚ), (0 : ℚ))]| ≤ eps)
    (q : ℚ) :
    |interpPts q (maskFilter M P) - interpPts q P| ≤ eps := by
  have hKsub := maskFilterAux_sublist M P 0
  haveI : IsTrans (ℚ × ℚ) (fun u v => u.1 < v.1) :=
    ⟨fun _ _ _ h1 h2 => lt_trans h1 h2⟩
  have hKsort : ptsSorted (maskFilter M P) :=
    List.chain'_iff_pairwise.mpr ((ptsSorted_pairwise hsort).sublist hKsub)
  have hKhead : (maskFilter M P).head? = P.head? := maskFilter_head? M P h0
  have hKlast : (maskFilter M P).getLast? = P.getLast? :=
    maskFilterAux_getLast? M P 0 hne (by simpa using hl)
  have hPne : 0 < P.length := List.length_pos.mpr hne
  have hheadD : P.head? = some (P.getD 0 ((0 : ℚ), (0 : ℚ))) := by
    cases P with
    | nil => exact absurd rfl hne
    | cons a l => rfl
  have hlastD : P.getLast? = some (P.getD (P.length - 1) ((0 : ℚ), (0 : ℚ))) := by
    rw [List.getLast?_eq_getElem?, List.getElem?_eq_getElem (by omega),
      List.getD_eq_getElem?_getD, List.getElem?_eq_getElem (by omega)]
    rfl
  rcases le_or_lt q (P.getD 0 ((0 : ℚ), (0 : ℚ))).1 with hq1 | hq1
  · have hP : interpPts q P = (P.getD 0 ((0 : ℚ), (0 : ℚ))).2 := by
      cases P with
      | nil => exact absurd rfl hne
      | cons a l => exact interpPts_head_le hsort hq1
    have hK : interpPts q (maskFilter M P) = (P.getD 0 ((0 : ℚ), (0 : ℚ))).2 := by
      cases hKc : maskFilter M P with
      | nil =>
        rw [hKc] at hKhead
        rw [hheadD] at hKhead
        simp at hKhead
      | cons k0 K' =>
        rw [hKc] at hKhead hKsort
        rw [hheadD, List.head?_cons] at hKhead
        have hk0 := Option.some.inj hKhead
        rw [interpPts_head_le hKsort (by rw [hk0]; exact hq1), hk0]
    rw [hP, hK]
    simpa using heps
  rcases le_or_lt (P.getD (P.length - 1) ((0 : ℚ), (0 : ℚ))).1 q with hq2 | hq2
  · have hP : interpPts q P = (P.getD (P.length - 1) ((0 : ℚ), (0 : ℚ))).2 :=
      interpPts_last_le hsort hlastD hq2
    have hK : interpPts q (maskFilter M P) =
        (P.getD (P.length - 1) ((0 : ℚ), (0 : ℚ))).2 :=
      interpPts_last_le hKsort (by rw [hKlast]; exact hlastD) hq2
    rw [hP, hK]
    simpa using heps
  have hn2 : 2 ≤ P.length := by
    by_contra hc
    have hn1 : P.length = 1 := by omega
    rw [hn1] at hq2
    have := lt_trans hq1 hq2
    simp at this
  have hA0 : M 0 = true ∧ (P.getD 0 ((0 : ℚ), (0 : ℚ))).1 ≤ q := ⟨h0, le_of_lt hq1⟩
  set a := Nat.findGreatest
    (fun j => M j = true ∧ (P.getD j ((0 : ℚ), (0 : ℚ))).1 ≤ q) (P.length - 1)
    with hadef
  have ha : M a = true ∧ (P.getD a ((0 : ℚ), (0 : ℚ))).1 ≤ q :=
    Nat.findGreatest_spec
      (P := fun j => M j = true ∧ (P.getD j ((0 : ℚ), (0 : ℚ))).1 ≤ q)
      (m := 0) (by omega) hA0
  have haub : a ≤ P.length - 1 := Nat.findGreatest_le _
  have haq : a < P.length - 1 := by
    rcases lt_or_eq_of_le haub with h | h
    · exact h
    · exfalso
      rw [h] at ha
      exact absurd ha.2 (not_le.mpr hq2)
  have hbex : ∃ j, a < j ∧ j ≤ P.length - 1 ∧ M j = true :=
    ⟨P.length - 1, haq, le_rfl, hl⟩
  set b := Nat.find hbex with hbdef
  obtain ⟨hab, hbub, hMb⟩ := Nat.find_spec hbex
  have hbmin : ∀ c, a < c → c < b → M c = false := by
    intro c h1 h2
    by_contra hMc
    rw [Bool.not_eq_false] at hMc
    exact (Nat.find_min hbex h2) ⟨h1, by omega, hMc⟩
  have hbq : q ≤ (P.getD b ((0 : ℚ), (0 : ℚ))).1 := by
    by_contra hc
    push_neg at hc
    have hgb : b ≤ a := Nat.le_findGreatest hbub ⟨hMb, le_of_lt hc⟩
    omega
  obtain ⟨A', B', hKdec⟩ := maskFilterAux_decomp M ((0 : ℚ), (0 : ℚ)) P 0 a b hab
    (by omega) (by simpa using ha.1) (by simpa using hMb)
    (by intro c h1 h2; simpa using hbmin c h1 h2)
  have hKsort2 := hKsort
  rw [show maskFilter M P = maskFilterAux M 0 P from rfl, hKdec] at hKsort2
  have hKval : interpPts q (maskFilter M P) =
      (P.getD a ((0 : ℚ), (0 : ℚ))).2 +
        ((P.getD b ((0 : ℚ), (0 : ℚ))).2 - (P.getD a ((0 : ℚ), (0 : ℚ))).2) *
          (q - (P.getD a ((0 : ℚ), (0 : ℚ))).1) /
          ((P.getD b ((0 : ℚ), (0 : ℚ))).1 - (P.getD a ((0 : ℚ), (0 : ℚ))).1) := by
    rw [show maskFilter M P = maskFilterAux M 0 P from rfl, hKdec]
    exact interpPts_segment A' hKsort2 ha.2 hbq
  rcases eq_or_lt_of_le hbq with hqb | hqb
  · have hPv : interpPts q P = (P.getD b ((0 : ℚ), (0 : ℚ))).2 := by
      rw [hqb]
      exact interpPts_tie hsort (getD_mem_of_lt (by omega) _)
    have hKv : interpPts q (maskFilter M P) = (P.getD b ((0 : ℚ), (0 : ℚ))).2 := by
      rw [hqb]
      apply interpPts_tie hKsort
      rw [show maskFilter M P = maskFilterAux M 0 P from rfl, hKdec]
      exact List.mem_append_right _ (by simp)
    rw [hPv, hKv]
    simpa using heps
  set p := Nat.findGreatest (fun j => (P.getD j ((0 : ℚ), (0 : ℚ))).1 ≤ q) b
    with hpdef
  have hpa : a ≤ p := Nat.le_findGreatest (le_of_lt hab) ha.2
  have hpb : p ≤ b := Nat.findGreatest_le _
  have hpq : (P.getD p ((0 : ℚ), (0 : ℚ))).1 ≤ q :=
    Nat.findGreatest_spec
      (P := fun j => (P.getD j ((0 : ℚ), (0 : ℚ))).1 ≤ q)
      (m := a) (le_of_lt hab) ha.2
  have hplt : p < b := by
    rcases lt_or_eq_of_le hpb with h | h
    · exact h
    · exfalso
      rw [h] at hpq
      exact absurd hpq (not_le.mpr hqb)
  have hq2' : q < (P.getD (p + 1) ((0 : ℚ), (0 : ℚ))).1 := by
    have h := Nat.findGreatest_is_greatest
      (P := fun j => (P.getD j ((0 : ℚ), (0 : ℚ))).1 ≤ q)
      (show Nat.findGreatest
        (fun j => (P.getD j ((0 : ℚ), (0 : ℚ))).1 ≤ q) b < p + 1 from by
          rw [← hpdef]; omega)
      (show p + 1 ≤ b from by omega)
    exact not_le.mp h
  obtain ⟨A2, B2, hPdec⟩ := list_decomp_getD ((0 : ℚ), (0 : ℚ)) P p (by omega)
  have hsort2 := hsort
  rw [hPdec] at hsort2
  have hPval : interpPts q P =
      (P.getD p ((0 : ℚ), (0 : ℚ))).2 +
        ((P.getD (p + 1) ((0 : ℚ), (0 : ℚ))).2 - (P.getD p ((0 : ℚ), (0 : ℚ))).2) *
          (q - (P.getD p ((0 : ℚ), (0 : ℚ))).1) /
          ((P.getD (p + 1) ((0 : ℚ), (0 : ℚ))).1 - (P.getD p ((0 : ℚ), (0 : ℚ))).1) := by
    conv_lhs => rw [hPdec]
    exact interpPts_segment A2 hsort2 hpq (le_of_lt hq2')
  have hxab : (P.getD a ((0 : ℚ), (0 : ℚ))).1 < (P.getD b ((0 : ℚ), (0 : ℚ))).1 :=
    ptsSorted_getD_lt hsort a b hab (by omega)
  have hchord_pair : ptsSorted
      [P.getD a ((0 : ℚ), (0 : ℚ)), P.getD b ((0 : ℚ), (0 : ℚ))] :=
    List.chain'_pair.mpr hxab
  have hxa_le_p : (P.getD a ((0 : ℚ), (0 : ℚ))).1 ≤ (P.getD p ((0 : ℚ), (0 : ℚ))).1 := by
    rcases eq_or_lt_of_le hpa with h | h
    · exact le_of_eq (by rw [h])
    · exact le_of_lt (ptsSorted_getD_lt hsort a p h (by omega))
  have hxp_le_b : (P.getD p ((0 : ℚ), (0 : ℚ))).1 ≤ (P.getD b ((0 : ℚ), (0 : ℚ))).1 :=
    le_of_lt (ptsSorted_getD_lt hsort p b hplt (by omega))
  have hxa_le_p1 : (P.getD a ((0 : ℚ), (0 : ℚ))).1 ≤
      (P.getD (p + 1) ((0 : ℚ), (0 : ℚ))).1 :=
    le_of_lt (ptsSorted_getD_lt hsort a (p + 1) (by omega) (by omega))
  have hxp1_le_b : (P.getD (p + 1) ((0 : ℚ), (0 : ℚ))).1 ≤
      (P.getD b ((0 : ℚ), (0 : ℚ))).1 := by
    rcases eq_or_lt_of_le (show p + 1 ≤ b from by omega) with h | h
    · exact le_of_eq (by rw [h])
    · exact le_of_lt (ptsSorted_getD_lt hsort (p + 1) b h (by omega))
  have hchordp := interpPts_segment (q := (P.getD p ((0 : ℚ), (0 : ℚ))).1)
    ([] : List (ℚ × ℚ)) hchord_pair hxa_le_p hxp_le_b
  have hchordp1 := interpPts_segment (q := (P.getD (p + 1) ((0 : ℚ), (0 : ℚ))).1)
    ([] : List (ℚ × ℚ)) hchord_pair hxa_le_p1 hxp1_le_b
  have hb_p := hbound a b hab (by omega) ha.1 hMb hbmin p hpa (le_of_lt hplt)
  have hb_p1 := hbound a b hab (by omega) ha.1 hMb hbmin (p + 1) (by omega) (by omega)
  rw [show ([P.getD a ((0 : ℚ), (0 : ℚ)), P.getD b ((0 : ℚ), (0 : ℚ))] : List (ℚ × ℚ)) =
    [] ++ P.getD a ((0 : ℚ), (0 : ℚ)) :: P.getD b ((0 : ℚ), (0 : ℚ)) :: [] from rfl,
    hchordp] at hb_p
  rw [show ([P.getD a ((0 : ℚ), (0 : ℚ)), P.getD b ((0 : ℚ), (0 : ℚ))] : List (ℚ × ℚ)) =
    [] ++ P.getD a ((0 : ℚ), (0 : ℚ)) :: P.getD b ((0 : ℚ), (0 : ℚ)) :: [] from rfl,
    hchordp1] at hb_p1
  have hup : (P.getD p ((0 : ℚ), (0 : ℚ))).1 < (P.getD (p + 1) ((0 : ℚ), (0 : ℚ))).1 :=
    ptsSorted_getD_lt hsort p (p + 1) (by omega) (by omega)
  rw [hKval, hPval]
  set xa := (P.getD a ((0 : ℚ), (0 : ℚ))).1
  set ya := (P.getD a ((0 : ℚ), (0 : ℚ))).2
  set xb := (P.getD b ((0 : ℚ), (0 : ℚ))).1
  set yb := (P.getD b ((0 : ℚ), (0 : ℚ))).2
  set u := (P.getD p ((0 : ℚ), (0 : ℚ))).1
  set yu := (P.getD p ((0 : ℚ), (0 : ℚ))).2
  set v := (P.getD (p + 1) ((0 : ℚ), (0 : ℚ))).1
  set yv := (P.getD (p + 1) ((0 : ℚ), (0 : ℚ))).2
  have hLq : ya + (yb - ya) * (q - xa) / (xb - xa) =
      (ya + (yb - ya) * (u - xa) / (xb - xa)) +
        ((ya + (yb - ya) * (v - xa) / (xb - xa)) -
          (ya + (yb - ya) * (u - xa) / (xb - xa))) * (q - u) / (v - u) := by
    have h1 : xb - xa ≠ 0 := ne_of_gt (sub_pos.mpr hxab)
    have h2 : v - u ≠ 0 := ne_of_gt (sub_pos.mpr hup)
    field_simp
    ring
  rw [hLq, abs_sub_comm]
  exact affine_comb_abs_le hup hpq (le_of_lt hq2') hb_p hb_p1

theorem simplifyArrays_spec (x : List ℤ) (y : List ℚ) (eps : ℚ)
    (hx : List.Chain' (· < ·) x) (hlen : x.length = y.length)
    (h2 : 2 ≤ x.length) (heps : 0 ≤ eps) :
    ∃ xr yr, simplifyArrays x y eps = some (.ok (xr, yr)) ∧
      List.Chain' (· < ·) xr ∧ xr.length = yr.length ∧ xr ≠ [] ∧
      xr.head? = x.head? ∧ xr.getLast? = x.getLast? ∧
      yr.head? = y.head? ∧ yr.getLast? = y.getLast? ∧
      ∀ q : ℚ, |interpPts q ((castList xr).zip yr) -
        interpPts q ((castList x).zip y)| ≤ eps := by
  have hxne : x ≠ [] := by
    intro h
    rw [h] at h2
    simp at h2
  have hyne : y ≠ [] := by
    intro h
    rw [h] at hlen
    simp at hlen
    exact hxne hlen
  have hloop := simplifyLoop_spec x y eps hx heps (simplifyFuel x.length)
    [(0, x.length)] (fun _ => true)
    (by
      intro r hr
      rw [List.mem_singleton] at hr
      subst hr
      exact ⟨by show 0 + 2 ≤ x.length; omega, le_rfl⟩)
    (by
      show stackMeasure [(0, x.length)] < simplifyFuel x.length
      simp only [stackMeasure, simplifyFuel, List.map_cons, List.map_nil,
        List.sum_cons, List.sum_nil, Nat.sub_zero, Nat.add_zero]
      exact Nat.lt_succ_self _)
  set M : ℕ → Bool := fun p => ! discSet x y eps 0 x.length p with hMdef
  have hfm : ∀ p, ((fun _ : ℕ => true) p &&
      ! List.any [(0, x.length)] (fun r => discSet x y eps r.1 r.2 p)) = M p := by
    intro p
    rw [hMdef]
    simp
  have harr : simplifyArrays x y eps =
      some (.ok (maskFilter M x, maskFilter M y)) := by
    calc simplifyArrays x y eps
        = some (.ok (maskFilter (fun p => (fun _ : ℕ => true) p &&
            ! List.any [(0, x.length)] (fun r => discSet x y eps r.1 r.2 p)) x,
          maskFilter (fun p => (fun _ : ℕ => true) p &&
            ! List.any [(0, x.length)] (fun r => discSet x y eps r.1 r.2 p)) y)) := by
          rw [simplifyArrays, hloop]
          rfl
      _ = some (.ok (maskFilter M x, maskFilter M y)) := by rw [funext hfm]
  have hd0 : discSet x y eps 0 x.length 0 = false := by
    by_contra h
    rw [Bool.not_eq_false] at h
    have := discSet_subset x y eps hx heps x.length 0 x.length 0
      (by omega) (by omega) le_rfl h
    omega
  have hM0 : M 0 = true := by
    rw [hMdef]
    simp [hd0]
  have hdl : discSet x y eps 0 x.length (x.length - 1) = false := by
    by_contra h
    rw [Bool.not_eq_false] at h
    have := discSet_subset x y eps hx heps x.length 0 x.length (x.length - 1)
      (by omega) (by omega) le_rfl h
    omega
  have hMl : M (x.length - 1) = true := by
    rw [hMdef]
    simp [hdl]
  have hxh : (maskFilter M x).head? = x.head? := maskFilter_head? M x hM0
  have hyh : (maskFilter M y).head? = y.head? := maskFilter_head? M y hM0
  have hxl : (maskFilter M x).getLast? = x.getLast? :=
    maskFilterAux_getLast? M x 0 hxne (by simpa using hMl)
  have hyl : (maskFilter M y).getLast? = y.getLast? :=
    maskFilterAux_getLast? M y 0 hyne (by simpa [← hlen] using hMl)
  haveI : IsTrans ℤ (· < ·) := ⟨fun _ _ _ h1 h2 => lt_trans h1 h2⟩
  have hxr : List.Chain' (· < ·) (maskFilter M x) :=
    List.chain'_iff_pairwise.mpr
      ((List.chain'_iff_pairwise.mp hx).sublist (maskFilterAux_sublist M x 0))
  have hlenr : (maskFilter M x).length = (maskFilter M y).length :=
    maskFilterAux_length_eq M x y 0 hlen
  have hner : maskFilter M x ≠ [] := by
    intro h
    rw [h] at hxh
    cases x with
    | nil => exact hxne rfl
    | cons a l => simp at hxh
  have hPsort : ptsSorted ((castList x).zip y) := coordPts_sorted ⟨x, y⟩ hx
  have hPlen : ((castList x).zip y).length = x.length := by
    rw [List.length_zip]
    simp [castList]
    omega
  have hPne : (castList x).zip y ≠ [] := by
    intro h
    rw [h] at hPlen
    simp at hPlen
    omega
  have hgetD : ∀ j, j < x.length →
      ((castList x).zip y).getD j ((0 : ℚ), (0 : ℚ)) =
        (((x.getD j 0 : ℤ) : ℚ), y.getD j 0) := by
    intro j hj
    have hj1 : j < ((castList x).zip y).length := by omega
    have hj2 : j < (castList x).length := by
      simp [castList]
      omega
    have hj3 : j < y.length := by omega
    rw [List.getD_eq_getElem?_getD, List.getElem?_eq_getElem hj1, Option.getD_some,
      List.getElem_zip]
    congr 1
    · have hc1 := List.getElem?_eq_getElem hj2
      have hc2 : (castList x)[j]? = some ((x.getD j 0 : ℤ) : ℚ) := by
        rw [show castList x = x.map (fun i : ℤ => (i : ℚ)) from rfl,
          List.getElem?_map, List.getElem?_eq_getElem hj,
          List.getD_eq_getElem?_getD, List.getElem?_eq_getElem hj]
        rfl
      exact Option.some.inj (hc1.symm.trans hc2)
    · have hc3 := List.getElem?_eq_getElem hj3
      have hc4 : y[j]? = some (y.getD j 0) := by
        rw [List.getD_eq_getElem?_getD, List.getElem?_eq_getElem hj3]
        rfl
      exact Option.some.inj (hc3.symm.trans hc4)
  have hbound : ∀ a b, a < b → b < ((castList x).zip y).length →
      M a = true → M b = true → (∀ c, a < c → c < b → M c = false) →
      ∀ p, a ≤ p → p ≤ b →
        |(((castList x).zip y).getD p ((0 : ℚ), (0 : ℚ))).2 -
          interpPts (((castList x).zip y).getD p ((0 : ℚ), (0 : ℚ))).1
            [((castList x).zip y).getD a ((0 : ℚ), (0 : ℚ)),
              ((castList x).zip y).getD b ((0 : ℚ), (0 : ℚ))]| ≤ eps := by
    intro a b hab hbP hMa hMb hbet p hpa hpb
    have hbn : b < x.length := by omega
    have hda : discSet x y eps 0 x.length a = false := by
      rw [hMdef] at hMa
      simpa using hMa
    have hdb : discSet x y eps 0 x.length b = false := by
      rw [hMdef] at hMb
      simpa using hMb
    have hchord := discSet_chord_bound x y eps hx heps x.length 0 x.length
      (by omega) (by omega) le_rfl a b (by omega) hab (by omega) hda hdb
      (by
        intro c h1 h2
        have hc := hbet c h1 h2
        rw [hMdef] at hc
        simpa using hc)
      p hpa hpb
    rw [hgetD p (by omega), hgetD a (by omega), hgetD b (by omega)]
    exact hchord
  have hcomp := maskFilter_interp_bound ((castList x).zip y) M eps heps hPsort hPne
    hM0 (by rw [hPlen]; exact hMl) hbound
  have hzipc : (castList (maskFilter M x)).zip (maskFilter M y) =
      maskFilter M ((castList x).zip y) := by
    rw [show castList (maskFilter M x) = maskFilter M (castList x) from
      (maskFilterAux_map M (fun i : ℤ => (i : ℚ)) x 0).symm]
    exact (maskFilterAux_zip M (castList x) y 0 (by simp [castList]; omega)).symm
  refine ⟨maskFilter M x, maskFilter M y, harr, hxr, hlenr, hner, hxh, hxl,
    hyh, hyl, ?_⟩
  intro q
  rw [hzipc]
  exact hcomp q

/-- C2: for every valid coordinate (strictly increasing integer `tie_indices`,
equal-length arrays, at least 2 tie points) and every `epsilon ≥ 0`,
`simplify(epsilon)` terminates successfully, the simplified coordinate retains
the first and last original tie points exactly (both tie indices and tie
values), and at every original integer index `i` the post-simplification
`get_value(i)` differs from the pre-simplification `get_value(i)` by at most
`epsilon`. -/
theorem C2_simplify_error_bound (c : LinearCoordinate)
    (hx : List.Chain' (· < ·) c.tie_indices)
    (hlen : c.tie_indices.length = c.tie_values.length)
    (h2 : 2 ≤ c.tie_indices.length) (eps : ℚ) (heps : 0 ≤ eps) :
    ∃ c' : LinearCoordinate, c.simplify eps = some (.ok c') ∧
      c'.tie_indices.head? = c.tie_indices.head? ∧
      c'.tie_indices.getLast? = c.tie_indices.getLast? ∧
      c'.tie_values.head? = c.tie_values.head? ∧
      c'.tie_values.getLast? = c.tie_values.getLast? ∧
      ∀ i : ℤ, ∃ v w, c.get_value (i : ℚ) = .ok v ∧
        c'.get_value (i : ℚ) = .ok w ∧ |w - v| ≤ eps := by
  obtain ⟨xr, yr, harr, hxr, hlenr, hner, hxh, hxl, hyh, hyl, hb⟩ :=
    simplifyArrays_spec c.tie_indices c.tie_values eps hx hlen h2 heps
  refine ⟨⟨xr, yr⟩, ?_, hxh, hxl, hyh, hyl, ?_⟩
  · rw [LinearCoordinate.simplify, harr]
    rfl
  · intro i
    have hxne : c.tie_indices ≠ [] := by
      intro h
      rw [h] at h2
      simp at h2
    refine ⟨interpPts (i : ℚ) (coordPts c),
      interpPts (i : ℚ) (coordPts (⟨xr, yr⟩ : LinearCoordinate)), ?_, ?_, ?_⟩
    · exact get_value_eq c hx hxne hlen (i : ℚ)
    · exact get_value_eq ⟨xr, yr⟩ hxr hner hlenr (i : ℚ)
    · exact hb (i : ℚ)

theorem C2_simplify_error_bound_witness :
    List.Chain' (· < ·) (([0, 1, 2] : List ℤ)) ∧
    ([0, 1, 2] : List ℤ).length = ([0, 5, 0] : List ℚ).length ∧
    2 ≤ ([0, 1, 2] : List ℤ).length ∧ (0 : ℚ) ≤ 1 ∧
    (∃ c' : LinearCoordinate,
      (⟨[0, 1, 2], [0, 5, 0]⟩ : LinearCoordinate).simplify 1 = some (.ok c') ∧
      c'.tie_indices.head? =
        (⟨[0, 1, 2], [0, 5, 0]⟩ : LinearCoordinate).tie_indices.head? ∧
      c'.tie_indices.getLast? =
        (⟨[0, 1, 2], [0, 5, 0]⟩ : LinearCoordinate).tie_indices.getLast? ∧
      c'.tie_values.head? =
        (⟨[0, 1, 2], [0, 5, 0]⟩ : LinearCoordinate).tie_values.head? ∧
      c'.tie_values.getLast? =
        (⟨[0, 1, 2], [0, 5, 0]⟩ : LinearCoordinate).tie_values.getLast? ∧
      ∀ i : ℤ, ∃ v w,
        (⟨[0, 1, 2], [0, 5, 0]⟩ : LinearCoordinate).get_value (i : ℚ) = .ok v ∧
        c'.get_value (i : ℚ) = .ok w ∧ |w - v| ≤ 1) :=
  ⟨by norm_num [List.chain'_cons], by norm_num, by norm_num, by norm_num,
    C2_simplify_error_bound ⟨[0, 1, 2], [0, 5, 0]⟩
      (by norm_num [List.chain'_cons]) (by norm_num) (by norm_num) 1
      (by norm_num)⟩
